import Mathlib

/-!
# Verification of the ROG co-op minesweeper core

Shallow embedding of the board engine, game-session handlers, sync client
and relay of the repository (client component file and `server.ts`).

Conventions of the embedding:
* the 2-D cell grid is a `List (List Cell)`, mutated by pure updates;
* coordinates are `Int`, as the client recurses with offsets `-1..1` and
  the source guards explicitly against negative indices;
* the random stream consumed by mine placement is an explicit list of
  picked positions (rejection sampling consumes the list; an exhausted
  list models a run in which the sampling loop has not yet finished);
* the recursive flood fill is defined with an explicit fuel argument;
  fuel `unrevealedCount b + 1` is shown sufficient (each level of the
  recursion reveals a fresh cell before recursing);
* out-of-contract JavaScript accesses (`board[r][c]` on a missing row,
  which throws) are modelled by `Option`, `none` standing for the thrown
  exception.
-/

set_option maxHeartbeats 1000000

namespace ROG

/-- `{rows, cols, mines}` difficulty configuration. -/
structure GameConfig where
  rows : Nat
  cols : Nat
  mines : Nat
deriving DecidableEq

/-- The three fixed presets of `CONFIGS`. -/
def beginnerConfig : GameConfig := ⟨9, 9, 10⟩

def intermediateConfig : GameConfig := ⟨16, 16, 40⟩

def expertConfig : GameConfig := ⟨16, 30, 99⟩

/-- Per-cell state, as in the `Cell` interface. -/
structure Cell where
  isMine : Bool
  isRevealed : Bool
  isFlagged : Bool
  neighborMines : Nat
deriving DecidableEq

/-- The all-false cell produced by `initBoard`. -/
def blankCell : Cell := ⟨false, false, false, 0⟩

instance : Inhabited Cell := ⟨blankCell⟩

/-- `GameStatus` union type. -/
inductive GameStatus where
  | idle
  | playing
  | won
  | lost
deriving DecidableEq

abbrev Board := List (List Cell)

/-- In-place update of index `n` of a list; out-of-range indices are
left untouched (the callers establish bounds first). -/
def listModify (f : α → α) : Nat → List α → List α
  | _, [] => []
  | 0, x :: xs => f x :: xs
  | n + 1, x :: xs => x :: listModify f n xs

/-- `board[r][c]` at `Nat` indices. -/
def cellAtN (b : Board) (r c : Nat) : Cell :=
  ((b.get? r).bind fun row => row.get? c).getD blankCell

/-- `board[r][c]` at `Int` indices; `none` when the access would hit a
missing row or column (a thrown `TypeError` in the source). -/
def cellAt? (b : Board) (r c : Int) : Option Cell :=
  if 0 ≤ r ∧ 0 ≤ c then (b.get? r.toNat).bind fun row => row.get? c.toNat
  else none

/-- Total read of a cell, defaulting to a blank cell off the grid. -/
def cellAtD (b : Board) (r c : Int) : Cell :=
  (cellAt? b r c).getD blankCell

def mineAt (b : Board) (r c : Int) : Bool := (cellAtD b r c).isMine

def revealedAt (b : Board) (r c : Int) : Bool := (cellAtD b r c).isRevealed

def flagAt (b : Board) (r c : Int) : Bool := (cellAtD b r c).isFlagged

def countAt (b : Board) (r c : Int) : Nat := (cellAtD b r c).neighborMines

/-- The bounds test of `revealCell`: row against `currentBoard.length`,
column against `currentBoard[0].length`. -/
def inb (b : Board) (r c : Int) : Prop :=
  0 ≤ r ∧ r < (b.length : Int) ∧ 0 ≤ c ∧ c < ((b.headD []).length : Int)

instance (b : Board) (r c : Int) : Decidable (inb b r c) := by
  unfold inb; infer_instance

/-- Update one cell in place; off-grid coordinates leave the board
unchanged. -/
def modifyCell (b : Board) (r c : Int) (f : Cell → Cell) : Board :=
  if 0 ≤ r ∧ 0 ≤ c then listModify (listModify f c.toNat) r.toNat b else b

/-- `cell.isMine = true` at `Nat` indices (mine placement). -/
def setMineN (b : Board) (r c : Nat) : Board :=
  modifyCell b (r : Int) (c : Int) fun cl => { cl with isMine := true }

/-- The full-disclosure sweep of the lost branch: every mine cell is
marked revealed. -/
def revealAllMines (b : Board) : Board :=
  b.map (List.map fun cl => if cl.isMine then { cl with isRevealed := true } else cl)

/-- Number of cells of the grid satisfying a predicate. -/
def cellCountP (p : Cell → Bool) (b : Board) : Nat :=
  (b.map fun row => row.countP p).sum

/-- Number of cells with `isRevealed = true` (the `checkWin` count). -/
def revealedCount (b : Board) : Nat :=
  cellCountP (fun cl => cl.isRevealed) b

/-- Number of cells with `isRevealed = false`; the fuel bound of the
flood fill. -/
def unrevealedCount (b : Board) : Nat :=
  cellCountP (fun cl => !cl.isRevealed) b

/-- Number of flagged cells. -/
def flagCount (b : Board) : Nat :=
  cellCountP (fun cl => cl.isFlagged) b

/-- Number of mine cells. -/
def mineCount (b : Board) : Nat :=
  cellCountP (fun cl => cl.isMine) b

/-- The nine `(dr, dc)` offsets of the two nested `-1..1` loops, in
iteration order. -/
def offsets9 : List (Int × Int) :=
  [(-1, -1), (-1, 0), (-1, 1), (0, -1), (0, 0), (0, 1), (1, -1), (1, 0), (1, 1)]

/-- The eight proper neighbor offsets (the spec's brute-force count). -/
def offsets8 : List (Int × Int) :=
  [(-1, -1), (-1, 0), (-1, 1), (0, -1), (0, 1), (1, -1), (1, 0), (1, 1)]

/-- Brute-force count of mines among the up to 8 in-bounds neighbors of
`(r, c)` (off-grid neighbors read as non-mines). -/
def bruteCount (b : Board) (r c : Int) : Nat :=
  (offsets8.filter fun d => mineAt b (r + d.1) (c + d.2)).length

/-- The count of the nested `dr, dc` loop of `startGame`: all nine
offsets, each checked against the config bounds before reading
`isMine`. -/
def countAround (cfg : GameConfig) (b : Board) (r c : Int) : Nat :=
  (offsets9.filter fun d =>
    decide (0 ≤ r + d.1) && decide (r + d.1 < (cfg.rows : Int)) &&
    decide (0 ≤ c + d.2) && decide (c + d.2 < (cfg.cols : Int)) &&
    mineAt b (r + d.1) (c + d.2)).length

/-- The blank `rows × cols` grid allocated by `initBoard`. -/
def mkEmptyBoard (cfg : GameConfig) : Board :=
  List.replicate cfg.rows (List.replicate cfg.cols blankCell)

/-- The rejection-sampling loop of `startGame`: while fewer than
`cfg.mines` mines are placed, consume the next random pick and accept it
when the cell is not yet a mine and differs from the excluded first
click.  `none` models a random stream that has not yet filled the
quota. -/
def placeMinesGo (cfg : GameConfig) (fr fc : Int) :
    List (Nat × Nat) → Nat → Board → Option Board
  | [], placed, b => if cfg.mines ≤ placed then some b else none
  | p :: rest, placed, b =>
    if cfg.mines ≤ placed then some b
    else if (cellAtN b p.1 p.2).isMine = false ∧ ¬((p.1 : Int) = fr ∧ (p.2 : Int) = fc) then
      placeMinesGo cfg fr fc rest (placed + 1) (setMineN b p.1 p.2)
    else placeMinesGo cfg fr fc rest placed b

/-- The neighbor-count pass of `startGame`: for every in-config
position, a non-mine cell gets `neighborMines := countAround`, a mine
cell is left untouched.  (The source mutates the grid in place; since
`isMine` is not written by this pass, rebuilding every cell from the
placed board is the same function on `rows × cols` grids.) -/
def computeNeighbors (cfg : GameConfig) (b : Board) : Board :=
  (List.range cfg.rows).map fun r =>
    (List.range cfg.cols).map fun c =>
      let cl := cellAtN b r c
      if cl.isMine then cl
      else { cl with neighborMines := countAround cfg b (r : Int) (c : Int) }

/-- Mine placement of `startGame` as run from the blank idle board:
placement followed by the neighbor-count pass. -/
def generate (cfg : GameConfig) (fr fc : Int) (picks : List (Nat × Nat)) : Option Board :=
  (placeMinesGo cfg fr fc picks 0 (mkEmptyBoard cfg)).map (computeNeighbors cfg)

/-- `checkWin`: sets the status to `won` exactly when the number of
revealed cells is `rows * cols - mines`; otherwise the status is left
as it was. -/
def checkWin (cfg : GameConfig) (b : Board) (s : GameStatus) : GameStatus :=
  if revealedCount b = cfg.rows * cfg.cols - cfg.mines then GameStatus.won else s

/-- Sequential processing of a list of positions by a reveal step,
threading board and status left to right (the unrolled `dr, dc` loop of
the flood fill). -/
def revealSeq (step : Int → Int → Board → GameStatus → Board × GameStatus) :
    List (Int × Int) → Board → GameStatus → Board × GameStatus
  | [], b, s => (b, s)
  | q :: qs, b, s =>
    let p := step q.1 q.2 b s
    revealSeq step qs p.1 p.2

/-- The positions visited by the flood-fill loop around `(r, c)`. -/
def neighborPositions (r c : Int) : List (Int × Int) :=
  offsets9.map fun d => (r + d.1, c + d.2)

/-- `revealCell`, with explicit fuel bounding the recursion depth.
Mirrors the source line by line: the bounds/revealed/flagged guard, the
reveal, the mine branch (full mine disclosure, status `lost`, early
return), the flood-fill loop over all nine offsets when
`neighborMines == 0`, and the trailing `checkWin`. -/
def revealGo (cfg : GameConfig) (fuel : Nat) (r c : Int) (b : Board) (s : GameStatus) :
    Board × GameStatus :=
  match fuel with
  | 0 => (b, s)
  | Nat.succ f =>
    if r < 0 ∨ (b.length : Int) ≤ r ∨ c < 0 ∨ ((b.headD []).length : Int) ≤ c
        ∨ (cellAtD b r c).isRevealed = true ∨ (cellAtD b r c).isFlagged = true then
      (b, s)
    else
      let b1 := modifyCell b r c fun cl => { cl with isRevealed := true }
      if (cellAtD b1 r c).isMine = true then
        (revealAllMines b1, GameStatus.lost)
      else
        let p :=
          if (cellAtD b1 r c).neighborMines = 0 then
            revealSeq (fun r' c' b' s' => revealGo cfg f r' c' b' s')
              (neighborPositions r c) b1 s
          else (b1, s)
        (p.1, checkWin cfg p.1 p.2)

/-- `revealCell` proper: the fuel `unrevealedCount b + 1` is enough for
the recursion to run to completion (each recursive level has revealed a
fresh cell first). -/
def revealCell (cfg : GameConfig) (r c : Int) (b : Board) (s : GameStatus) :
    Board × GameStatus :=
  revealGo cfg (unrevealedCount b + 1) r c b s

/-- `startGame`: place mines on a copy of the current (blank) board,
compute neighbor counts, set status `playing`, then reveal the first
click. -/
def startGame (cfg : GameConfig) (fr fc : Int) (picks : List (Nat × Nat)) (b : Board) :
    Option (Board × GameStatus) :=
  (placeMinesGo cfg fr fc picks 0 b).map fun placed =>
    revealCell cfg fr fc (computeNeighbors cfg placed) GameStatus.playing

/-- `handleCellClick`: ignored in `won`/`lost`; first click starts the
game; otherwise a plain reveal. -/
def handleCellClick (cfg : GameConfig) (picks : List (Nat × Nat)) (r c : Int)
    (b : Board) (s : GameStatus) : Option (Board × GameStatus) :=
  if s = GameStatus.won ∨ s = GameStatus.lost then some (b, s)
  else if s = GameStatus.idle then startGame cfg r c picks b
  else some (revealCell cfg r c b s)

/-- `handleRightClick`: returns early in `idle`/`won`/`lost` (before the
cell access); otherwise reads `board[r][c]` — `none` models the thrown
`TypeError` when the coordinates are off the grid — returns early on a
revealed cell, else toggles the flag and adjusts the counter by one. -/
def handleRightClick (r c : Int) (b : Board) (s : GameStatus) (minesLeft : Int) :
    Option (Board × Int) :=
  if s = GameStatus.idle ∨ s = GameStatus.won ∨ s = GameStatus.lost then some (b, minesLeft)
  else
    match cellAt? b r c with
    | none => none
    | some cl =>
      if cl.isRevealed then some (b, minesLeft)
      else
        some (modifyCell b r c fun c' => { c' with isFlagged := !c'.isFlagged },
          if cl.isFlagged then minesLeft + 1 else minesLeft - 1)

/-- The client-side per-session state touched by the click handlers. -/
structure SessionLocal where
  board : Board
  status : GameStatus
  minesLeft : Int
deriving DecidableEq

/-- A cell click at the session level (`minesLeft` is not written by the
reveal path). -/
def clickStep (cfg : GameConfig) (picks : List (Nat × Nat)) (r c : Int)
    (st : SessionLocal) : Option SessionLocal :=
  (handleCellClick cfg picks r c st.board st.status).map fun p =>
    { board := p.1, status := p.2, minesLeft := st.minesLeft }

/-- A right click at the session level (`status` is not written by the
flag path). -/
def flagStep (r c : Int) (st : SessionLocal) : Option SessionLocal :=
  (handleRightClick r c st.board st.status st.minesLeft).map fun p =>
    { st with board := p.1, minesLeft := p.2 }

/-- A whole sequence of flag toggles. -/
def applyFlags (ops : List (Int × Int)) (st : SessionLocal) : Option SessionLocal :=
  ops.foldlM (fun st' q => flagStep q.1 q.2 st') st

/-- `Difficulty` union type. -/
inductive Difficulty where
  | beginner
  | intermediate
  | expert
deriving DecidableEq

/-- The `SessionState` snapshot exchanged over the wire. -/
structure SessionState where
  board : Board
  status : GameStatus
  minesLeft : Int
  seconds : Nat
  difficulty : Difficulty
deriving DecidableEq

/-- The relay's `rooms` map, `roomId → latest SessionState`. -/
abbrev Rooms := List (String × SessionState)

def roomsGet? (rooms : Rooms) (rid : String) : Option SessionState :=
  match rooms with
  | [] => none
  | (k, v) :: rest => if k = rid then some v else roomsGet? rest rid

/-- `rooms.set(roomId, state)`: replace the existing entry, or append a
new one for a room not seen before. -/
def roomsSet (rooms : Rooms) (rid : String) (st : SessionState) : Rooms :=
  match rooms with
  | [] => [(rid, st)]
  | (k, v) :: rest => if k = rid then (rid, st) :: rest else (k, v) :: roomsSet rest rid st

/-- The `update-state` handler of `server.ts`: store the snapshot under
the room id, and emit it as `sync-state` to every room member other than
the sender (`socket.to(roomId)` excludes the sending socket).  The room
membership is the socket room as maintained by `join-room`. -/
def updateStateHandler (rooms : Rooms) (roomMembers : List String) (sender : String)
    (rid : String) (st : SessionState) : Rooms × List (String × SessionState) :=
  (roomsSet rooms rid st, (roomMembers.filter fun m => m ≠ sender).map fun m => (m, st))

/-- The client-side state touched by the `sync-state` handler, plus the
`isRemoteUpdate` echo-suppression flag. -/
structure ClientState where
  board : Board
  status : GameStatus
  minesLeft : Int
  seconds : Nat
  difficulty : Difficulty
  isRemoteUpdate : Bool
deriving DecidableEq

/-- The `sync-state` handler: raise the suppression flag, then overwrite
every session field with the received snapshot.  (The `setTimeout` that
clears the flag 50 ms later is a separate, later event.) -/
def applySyncState (cs : ClientState) (st : SessionState) : ClientState :=
  { board := st.board, status := st.status, minesLeft := st.minesLeft,
    seconds := st.seconds, difficulty := st.difficulty, isRemoteUpdate := true }

/-- `emitState`: while `isRemoteUpdate` is set nothing is sent;
otherwise the given snapshot goes out as an `update-state` message. -/
def emitState (cs : ClientState) (st : SessionState) : Option SessionState :=
  if cs.isRemoteUpdate then none else some st

/-- `initBoard` at the session level: fresh blank board, status `idle`,
counter back to `config.mines`. -/
def initBoard (cfg : GameConfig) : SessionLocal :=
  ⟨mkEmptyBoard cfg, GameStatus.idle, (cfg.mines : Int)⟩

/-- Rewrite every `isFlagged` field of a row according to an arbitrary
assignment (used to state that flags are irrelevant to `checkWin`). -/
def reflagRow (f : Nat → Bool) : Nat → List Cell → List Cell
  | _, [] => []
  | j, cl :: rest => { cl with isFlagged := f j } :: reflagRow f (j + 1) rest

def reflagGo (f : Nat → Nat → Bool) : Nat → Board → Board
  | _, [] => []
  | i, row :: rest => reflagRow (f i) 0 row :: reflagGo f (i + 1) rest

/-- The board `b` with every cell's `isFlagged` replaced by `f i j`;
all other fields untouched. -/
def reflag (f : Nat → Nat → Bool) (b : Board) : Board := reflagGo f 0 b

/-- The fields of a cell that the reveal operation never writes. -/
def staticPart (cl : Cell) : Bool × Bool × Nat :=
  (cl.isMine, cl.isFlagged, cl.neighborMines)

/-- How a board changes under the reveal operation: same row lengths,
same static fields everywhere, `isRevealed` only ever turned on. -/
def BoardEvolves (b b' : Board) : Prop :=
  b'.map List.length = b.map List.length ∧
  (∀ r c : Int, (cellAt? b' r c).map staticPart = (cellAt? b r c).map staticPart) ∧
  (∀ r c : Int, revealedAt b r c = true → revealedAt b' r c = true) ∧
  unrevealedCount b' ≤ unrevealedCount b

/-- Rectangular grid: every row has the length of row 0. -/
def Rect (b : Board) : Prop :=
  ∀ row ∈ b, row.length = (b.headD []).length

instance (b : Board) : Decidable (Rect b) := by
  unfold Rect; infer_instance

/-- Neighbor counts are consistent with the mine layout: every in-bounds
non-mine cell stores the brute-force count of its mined neighbors. -/
def Consistent (b : Board) : Prop :=
  ∀ r < b.length, ∀ c < (b.headD []).length,
    (cellAtN b r c).isMine = false →
      (cellAtN b r c).neighborMines = bruteCount b (r : Int) (c : Int)

instance (b : Board) : Decidable (Consistent b) := by
  unfold Consistent; infer_instance

/-- No cell is flagged. -/
def NoFlags (b : Board) : Prop :=
  ∀ r < b.length, ∀ c < (b.headD []).length, (cellAtN b r c).isFlagged = false

instance (b : Board) : Decidable (NoFlags b) := by
  unfold NoFlags; infer_instance

/-- No cell is revealed. -/
def NoneRevealed (b : Board) : Prop :=
  ∀ r < b.length, ∀ c < (b.headD []).length, (cellAtN b r c).isRevealed = false

instance (b : Board) : Decidable (NoneRevealed b) := by
  unfold NoneRevealed; infer_instance

/-- The connected zero-neighbor region of `(r, c)`: cells reachable from
`(r, c)` through chains of in-bounds cells whose `neighborMines` is 0
(each step moves to one of the surrounding positions). -/
inductive ZConn (b : Board) (r c : Int) : Int → Int → Prop where
  | refl : ZConn b r c r c
  | step {i j : Int} {d : Int × Int} : ZConn b r c i j → d ∈ offsets9 →
      inb b (i + d.1) (j + d.2) → countAt b (i + d.1) (j + d.2) = 0 →
      ZConn b r c (i + d.1) (j + d.2)

/-- The ring of non-zero cells bordering the zero region: neighbors of a
region cell whose own `neighborMines` is not 0. -/
def RingMem (b : Board) (r c i j : Int) : Prop :=
  ∃ z : Int × Int, ZConn b r c z.1 z.2 ∧ countAt b z.1 z.2 = 0 ∧
    ∃ d ∈ offsets8, i = z.1 + d.1 ∧ j = z.2 + d.2 ∧ countAt b i j ≠ 0

/-- Operational reveal closure: everything the flood fill starting at
`(r, c)` may touch — `(r, c)` itself, and any cell reached by stepping
from an already-reached in-bounds zero cell to one of the nine
surrounding positions. -/
inductive Reach (b : Board) (r c : Int) : Int → Int → Prop where
  | refl : Reach b r c r c
  | step {i j : Int} {d : Int × Int} : Reach b r c i j → inb b i j →
      countAt b i j = 0 → d ∈ offsets9 → Reach b r c (i + d.1) (j + d.2)

/-- Layout agreement with the original board `b0`: same row lengths and
same static fields everywhere (only `isRevealed` may differ). -/
def LayoutEq (b0 b : Board) : Prop :=
  b.map List.length = b0.map List.length ∧
  ∀ r c : Int, (cellAt? b r c).map staticPart = (cellAt? b0 r c).map staticPart

/-- Flood-fill stability relative to the static layout `b0`, with an
excuse set `E` of positions whose obligations are still pending: every
revealed in-bounds zero cell outside `E` has all its surrounding
in-bounds cells revealed. -/
def SExc (b0 b : Board) (E : Int × Int → Prop) : Prop :=
  ∀ i j : Int, ¬E (i, j) → revealedAt b i j = true → inb b0 i j →
    countAt b0 i j = 0 →
    ∀ d ∈ offsets9, inb b0 (i + d.1) (j + d.2) →
      revealedAt b (i + d.1) (j + d.2) = true

/-- A board of exactly the configured dimensions (every row list has
length `cols`, and there are `rows` of them). -/
def ShapeCfg (cfg : GameConfig) (b : Board) : Prop :=
  b.map List.length = List.replicate cfg.rows cfg.cols

/-! ## List-level lemmas -/

theorem listModify_length (f : α → α) : ∀ (n : Nat) (l : List α),
    (listModify f n l).length = l.length
  | n, [] => by cases n <;> rfl
  | 0, _ :: _ => rfl
  | n + 1, _ :: xs => by simp [listModify, listModify_length f n xs]

theorem get?_listModify_self (f : α → α) : ∀ (n : Nat) (l : List α),
    (listModify f n l).get? n = (l.get? n).map f
  | n, [] => by cases n <;> rfl
  | 0, x :: xs => rfl
  | n + 1, x :: xs => get?_listModify_self f n xs

theorem get?_listModify_other (f : α → α) : ∀ (n m : Nat) (l : List α), m ≠ n →
    (listModify f n l).get? m = l.get? m
  | n, _, [], _ => by cases n <;> rfl
  | 0, 0, x :: xs, h => absurd rfl h
  | 0, m + 1, x :: xs, _ => rfl
  | n + 1, 0, x :: xs, _ => rfl
  | n + 1, m + 1, x :: xs, h => get?_listModify_other f n m xs (by omega)

theorem listModify_of_get?_eq (f : α → α) : ∀ (n : Nat) (l : List α),
    (∀ a, l.get? n = some a → f a = a) → listModify f n l = l
  | n, [], _ => by cases n <;> rfl
  | 0, x :: xs, h => by simp [listModify, h x rfl]
  | n + 1, x :: xs, h => by
    simp [listModify, listModify_of_get?_eq f n xs (fun a ha => h a ha)]

theorem countP_eq_of_get? (p : α → Bool) : ∀ (l l' : List α), l.length = l'.length →
    (∀ n, (l.get? n).map p = (l'.get? n).map p) → l.countP p = l'.countP p
  | [], [], _, _ => rfl
  | [], _ :: _, h, _ => by simp at h
  | _ :: _, [], h, _ => by simp at h
  | x :: xs, y :: ys, hlen, h => by
    have h0 : p x = p y := by simpa using h 0
    have ih := countP_eq_of_get? p xs ys (by simpa using hlen) (fun n => by simpa using h (n + 1))
    simp [List.countP_cons, h0, ih]

theorem countP_listModify_add (p : α → Bool) (f : α → α) :
    ∀ (n : Nat) (l : List α) (a : α), l.get? n = some a →
    (listModify f n l).countP p + (if p a then 1 else 0) =
      l.countP p + (if p (f a) then 1 else 0)
  | _, [], a, h => by simp at h
  | 0, x :: xs, a, h => by
    obtain rfl : x = a := by simpa using h
    simp [listModify, List.countP_cons]; omega
  | n + 1, x :: xs, a, h => by
    have ih := countP_listModify_add p f n xs a (by simpa using h)
    simp only [listModify, List.countP_cons]; omega

/-! ## Board access and update lemmas -/

theorem cellAt?_eq_none_of_neg {b : Board} {r c : Int} (h : ¬(0 ≤ r ∧ 0 ≤ c)) :
    cellAt? b r c = none := by
  simp [cellAt?, h]

theorem cellAt?_nonneg {b : Board} {r c : Int} {cl : Cell} (h : cellAt? b r c = some cl) :
    0 ≤ r ∧ 0 ≤ c := by
  by_contra hn
  rw [cellAt?_eq_none_of_neg hn] at h; exact Option.noConfusion h

theorem cellAt?_modifyCell_self (b : Board) (r c : Int) (f : Cell → Cell) :
    cellAt? (modifyCell b r c f) r c = (cellAt? b r c).map f := by
  unfold modifyCell
  by_cases hrc : 0 ≤ r ∧ 0 ≤ c
  · rw [if_pos hrc]
    unfold cellAt?
    rw [if_pos hrc, if_pos hrc, get?_listModify_self]
    cases b.get? r.toNat with
    | none => rfl
    | some row =>
      show (listModify f c.toNat row).get? c.toNat = (row.get? c.toNat).map f
      exact get?_listModify_self f c.toNat row
  · rw [if_neg hrc, cellAt?_eq_none_of_neg hrc]; rfl

theorem cellAt?_modifyCell_other (b : Board) (r c : Int) (f : Cell → Cell) (i j : Int)
    (h : ¬(i = r ∧ j = c)) : cellAt? (modifyCell b r c f) i j = cellAt? b i j := by
  unfold modifyCell
  by_cases hrc : 0 ≤ r ∧ 0 ≤ c
  · rw [if_pos hrc]
    by_cases hij : 0 ≤ i ∧ 0 ≤ j
    · unfold cellAt?
      rw [if_pos hij, if_pos hij]
      by_cases hrow : i.toNat = r.toNat
      · have hir : i = r := by omega
        have hcol : j.toNat ≠ c.toNat := by
          intro hc
          exact h ⟨hir, by omega⟩
        rw [hrow, get?_listModify_self]
        cases b.get? r.toNat with
        | none => rfl
        | some row =>
          show (listModify f c.toNat row).get? j.toNat = row.get? j.toNat
          exact get?_listModify_other f c.toNat j.toNat row hcol
      · rw [get?_listModify_other _ _ _ _ hrow]
    · rw [cellAt?_eq_none_of_neg hij, cellAt?_eq_none_of_neg hij]
  · rw [if_neg hrc]

/-- Combined form of the two `modifyCell` access lemmas. -/
theorem cellAt?_modifyCell (b : Board) (r c : Int) (f : Cell → Cell) (i j : Int) :
    cellAt? (modifyCell b r c f) i j =
      if i = r ∧ j = c then (cellAt? b i j).map f else cellAt? b i j := by
  by_cases h : i = r ∧ j = c
  · obtain ⟨rfl, rfl⟩ := h
    rw [if_pos ⟨rfl, rfl⟩, cellAt?_modifyCell_self]
  · rw [if_neg h, cellAt?_modifyCell_other _ _ _ _ _ _ h]

theorem modifyCell_of_none {b : Board} {r c : Int} (f : Cell → Cell)
    (h : cellAt? b r c = none) : modifyCell b r c f = b := by
  unfold modifyCell
  by_cases hrc : 0 ≤ r ∧ 0 ≤ c
  · rw [if_pos hrc]
    unfold cellAt? at h
    rw [if_pos hrc] at h
    apply listModify_of_get?_eq
    intro row hrow
    apply listModify_of_get?_eq
    intro a ha
    rw [hrow] at h
    have h' : row.get? c.toNat = none := h
    rw [h'] at ha; exact Option.noConfusion ha
  · rw [if_neg hrc]

theorem get?_map' (f : α → β) : ∀ (l : List α) (n : Nat),
    (l.map f).get? n = (l.get? n).map f
  | [], n => by cases n <;> rfl
  | x :: xs, 0 => rfl
  | x :: xs, n + 1 => get?_map' f xs n

theorem cellAt?_revealAllMines (b : Board) (i j : Int) :
    cellAt? (revealAllMines b) i j =
      (cellAt? b i j).map fun cl =>
        if cl.isMine then { cl with isRevealed := true } else cl := by
  unfold revealAllMines cellAt?
  by_cases hij : 0 ≤ i ∧ 0 ≤ j
  · rw [if_pos hij, if_pos hij, get?_map']
    cases b.get? i.toNat with
    | none => rfl
    | some row =>
      show (row.map _).get? j.toNat = (row.get? j.toNat).map _
      exact get?_map' _ row j.toNat
  · rw [if_neg hij, if_neg hij]; rfl

theorem sum_countP_listModify (p : Cell → Bool) (g : List Cell → List Cell) :
    ∀ (n : Nat) (b : Board) (row : List Cell), b.get? n = some row →
    ((listModify g n b).map fun r' => r'.countP p).sum + row.countP p =
      (b.map fun r' => r'.countP p).sum + (g row).countP p
  | n, [], row, h => by cases n <;> exact Option.noConfusion h
  | 0, hd :: tl, row, h => by
    obtain rfl : hd = row := by simpa using h
    simp only [listModify, List.map_cons, List.sum_cons]
    omega
  | n + 1, hd :: tl, row, h => by
    have ih := sum_countP_listModify p g n tl row h
    simp only [listModify, List.map_cons, List.sum_cons]
    omega

theorem cellCountP_modify_add (p : Cell → Bool) (f : Cell → Cell) {b : Board} {r c : Int}
    {cl : Cell} (h : cellAt? b r c = some cl) :
    cellCountP p (modifyCell b r c f) + (if p cl then 1 else 0) =
      cellCountP p b + (if p (f cl) then 1 else 0) := by
  obtain ⟨hr, hc⟩ := cellAt?_nonneg h
  unfold cellAt? at h
  rw [if_pos ⟨hr, hc⟩] at h
  obtain ⟨row, hrow, hcell⟩ : ∃ row, b.get? r.toNat = some row ∧ row.get? c.toNat = some cl := by
    cases hb : b.get? r.toNat with
    | none => rw [hb] at h; exact Option.noConfusion h
    | some row => exact ⟨row, rfl, by rw [hb] at h; simpa using h⟩
  unfold modifyCell cellCountP
  rw [if_pos ⟨hr, hc⟩]
  have hsum := sum_countP_listModify p (listModify f c.toNat) r.toNat b row hrow
  have hrowmod := countP_listModify_add p f c.toNat row cl hcell
  omega

theorem mineAt_some {b : Board} {i j : Int} (h : mineAt b i j = true) :
    ∃ cl, cellAt? b i j = some cl ∧ cl.isMine = true := by
  unfold mineAt cellAtD at h
  cases hc : cellAt? b i j with
  | none => rw [hc] at h; exact absurd h (by simp [blankCell])
  | some cl => rw [hc] at h; exact ⟨cl, rfl, h⟩

/-! ## Unfolding lemmas for the fueled reveal -/

theorem revealGo_zero (cfg : GameConfig) (r c : Int) (b : Board) (s : GameStatus) :
    revealGo cfg 0 r c b s = (b, s) := by
  rw [revealGo]

theorem revealGo_succ (cfg : GameConfig) (f : Nat) (r c : Int) (b : Board) (s : GameStatus) :
    revealGo cfg (f + 1) r c b s =
      if r < 0 ∨ (b.length : Int) ≤ r ∨ c < 0 ∨ ((b.headD []).length : Int) ≤ c
          ∨ (cellAtD b r c).isRevealed = true ∨ (cellAtD b r c).isFlagged = true then
        (b, s)
      else
        let b1 := modifyCell b r c fun cl => { cl with isRevealed := true }
        if (cellAtD b1 r c).isMine = true then
          (revealAllMines b1, GameStatus.lost)
        else
          let p :=
            if (cellAtD b1 r c).neighborMines = 0 then
              revealSeq (fun r' c' b' s' => revealGo cfg f r' c' b' s')
                (neighborPositions r c) b1 s
            else (b1, s)
          (p.1, checkWin cfg p.1 p.2) := by
  rw [revealGo]

/-- The reveal guard as a statement about the board predicates. -/
theorem revealGo_noop (cfg : GameConfig) (fuel : Nat) (r c : Int) (b : Board) (s : GameStatus)
    (h : ¬inb b r c ∨ revealedAt b r c = true ∨ flagAt b r c = true) :
    revealGo cfg fuel r c b s = (b, s) := by
  cases fuel with
  | zero => exact revealGo_zero cfg r c b s
  | succ f =>
    rw [revealGo_succ, if_pos]
    unfold inb at h
    rcases h with h | h | h
    · by_cases h1 : r < 0
      · exact Or.inl h1
      · by_cases h2 : (b.length : Int) ≤ r
        · exact Or.inr (Or.inl h2)
        · by_cases h3 : c < 0
          · exact Or.inr (Or.inr (Or.inl h3))
          · exact Or.inr (Or.inr (Or.inr (Or.inl (by omega))))
    · exact Or.inr (Or.inr (Or.inr (Or.inr (Or.inl h))))
    · exact Or.inr (Or.inr (Or.inr (Or.inr (Or.inr h))))

/-! ## C9: echo suppression in the sync client -/

/-- C9: after the `sync-state` handler applies a remote snapshot the
`isRemoteUpdate` flag is set, and while that flag is set `emitState`
sends nothing, so the just-applied snapshot is never re-broadcast as a
new `update-state`. -/
theorem syncClient_echo_suppression (cs cs' : ClientState) (st st' : SessionState)
    (h : cs'.isRemoteUpdate = true) :
    (applySyncState cs st).isRemoteUpdate = true ∧
    emitState (applySyncState cs st) st' = none ∧
    emitState cs' st' = none := by
  refine ⟨rfl, rfl, ?_⟩
  unfold emitState
  rw [h]
  rfl

theorem syncClient_echo_suppression_witness :
    (⟨[], GameStatus.idle, 0, 0, Difficulty.beginner, true⟩ : ClientState).isRemoteUpdate = true ∧
    ((applySyncState ⟨[], GameStatus.idle, 0, 0, Difficulty.beginner, false⟩
        ⟨[], GameStatus.playing, 3, 1, Difficulty.beginner⟩).isRemoteUpdate = true ∧
      emitState (applySyncState ⟨[], GameStatus.idle, 0, 0, Difficulty.beginner, false⟩
        ⟨[], GameStatus.playing, 3, 1, Difficulty.beginner⟩)
        ⟨[], GameStatus.playing, 3, 1, Difficulty.beginner⟩ = none ∧
      emitState (⟨[], GameStatus.idle, 0, 0, Difficulty.beginner, true⟩ : ClientState)
        ⟨[], GameStatus.playing, 3, 1, Difficulty.beginner⟩ = none) :=
  ⟨rfl, syncClient_echo_suppression _ _ _ _ rfl⟩

/-! ## C8: relay update-state handling -/

theorem roomsGet?_roomsSet_self (rooms : Rooms) (rid : String) (st : SessionState) :
    roomsGet? (roomsSet rooms rid st) rid = some st := by
  induction rooms with
  | nil => simp [roomsSet, roomsGet?]
  | cons hd tl ih =>
    by_cases h : hd.1 = rid
    · simp [roomsSet, roomsGet?, h]
    · simp [roomsSet, roomsGet?, h, ih]

theorem roomsGet?_roomsSet_other (rooms : Rooms) (rid rid' : String) (st : SessionState)
    (h : rid' ≠ rid) : roomsGet? (roomsSet rooms rid st) rid' = roomsGet? rooms rid' := by
  have h' : ¬(rid = rid') := fun he => h (Eq.symm he)
  induction rooms with
  | nil => simp [roomsSet, roomsGet?, h']
  | cons hd tl ih =>
    by_cases hh : hd.1 = rid
    · simp only [roomsSet, if_pos hh, roomsGet?]
      rw [if_neg h', if_neg (show ¬(hd.1 = rid') by rw [hh]; exact h')]
    · simp only [roomsSet, if_neg hh, roomsGet?, ih]

/-- C8: the relay's `update-state` handler stores the received snapshot
under the room id, replacing any prior entry unconditionally (an unknown
room simply gains a fresh entry, no failure path exists, and other rooms
are untouched), and forwards exactly that snapshot as `sync-state` to
every room member other than the sender — never back to the sender. -/
theorem relay_updateState_spec (rooms : Rooms) (members : List String)
    (sender rid : String) (st : SessionState) :
    roomsGet? (updateStateHandler rooms members sender rid st).1 rid = some st ∧
    (∀ rid', rid' ≠ rid →
      roomsGet? (updateStateHandler rooms members sender rid st).1 rid' =
        roomsGet? rooms rid') ∧
    (∀ m stx, (m, stx) ∈ (updateStateHandler rooms members sender rid st).2 →
      m ≠ sender ∧ stx = st ∧ m ∈ members) ∧
    (∀ m, m ∈ members → m ≠ sender →
      (m, st) ∈ (updateStateHandler rooms members sender rid st).2) := by
  refine ⟨roomsGet?_roomsSet_self rooms rid st,
    fun rid' h => roomsGet?_roomsSet_other rooms rid rid' st h, ?_, ?_⟩
  · intro m stx hm
    unfold updateStateHandler at hm
    simp only [List.mem_map, List.mem_filter] at hm
    obtain ⟨m', ⟨hmem, hne⟩, heq⟩ := hm
    obtain ⟨rfl, rfl⟩ : m' = m ∧ st = stx := ⟨congrArg Prod.fst heq, congrArg Prod.snd heq⟩
    exact ⟨by simpa using hne, rfl, hmem⟩
  · intro m hmem hne
    unfold updateStateHandler
    simp only [List.mem_map, List.mem_filter]
    exact ⟨m, ⟨hmem, by simpa using hne⟩, rfl⟩

theorem relay_updateState_witness :
    roomsGet? (updateStateHandler [] ["a", "b"] "a" "r"
      ⟨[], GameStatus.idle, 0, 0, Difficulty.beginner⟩).1 "r" =
      some ⟨[], GameStatus.idle, 0, 0, Difficulty.beginner⟩ ∧
    ("b", (⟨[], GameStatus.idle, 0, 0, Difficulty.beginner⟩ : SessionState)) ∈
      (updateStateHandler [] ["a", "b"] "a" "r"
        ⟨[], GameStatus.idle, 0, 0, Difficulty.beginner⟩).2 :=
  ⟨(relay_updateState_spec [] ["a", "b"] "a" "r" _).1,
    (relay_updateState_spec [] ["a", "b"] "a" "r" _).2.2.2 "b" (by simp) (by simp)⟩

/-! ## C7: terminal statuses ignore reveal and flag requests -/

/-- C7: once the status is `won` or `lost` a cell click and a right
click are complete no-ops on the session (board, status and the mine
counter unchanged); a right click is also a no-op in `idle` (flag
toggles only act while `playing`); an explicit reset is what returns the
session to `idle`. -/
theorem terminal_requests_ignored (cfg : GameConfig) (picks : List (Nat × Nat))
    (r c : Int) (st : SessionLocal) :
    (st.status = GameStatus.won ∨ st.status = GameStatus.lost →
      clickStep cfg picks r c st = some st ∧ flagStep r c st = some st) ∧
    (st.status = GameStatus.idle → flagStep r c st = some st) ∧
    (initBoard cfg).status = GameStatus.idle ∧
    (initBoard cfg).minesLeft = (cfg.mines : Int) := by
  refine ⟨fun h => ⟨?_, ?_⟩, fun h => ?_, rfl, rfl⟩
  · unfold clickStep handleCellClick
    rw [if_pos h]
    rfl
  · unfold flagStep handleRightClick
    rw [if_pos (Or.inr h)]
    rfl
  · unfold flagStep handleRightClick
    rw [if_pos (Or.inl h)]
    rfl

theorem terminal_requests_ignored_witness :
    (⟨[[blankCell]], GameStatus.won, 5⟩ : SessionLocal).status = GameStatus.won ∧
    clickStep beginnerConfig [] 0 0 ⟨[[blankCell]], GameStatus.won, 5⟩ =
      some ⟨[[blankCell]], GameStatus.won, 5⟩ ∧
    flagStep 0 0 ⟨[[blankCell]], GameStatus.won, 5⟩ =
      some ⟨[[blankCell]], GameStatus.won, 5⟩ :=
  ⟨rfl, (terminal_requests_ignored beginnerConfig [] 0 0 _).1 (Or.inl rfl)⟩

/-! ## C5: guard behavior of reveal and the flag toggle -/

/-- C5 counterexample: an out-of-bounds right click while `playing` is
not a silent no-op — `handleRightClick` reads `board[r][c].isRevealed`
with no bounds guard, which throws (modelled as `none`) instead of
returning the unchanged state. -/
theorem flag_oob_raises :
    handleRightClick 5 0 [[blankCell]] GameStatus.playing 1 = none := by
  decide

/-- C5 (amended): the reveal operation treats out-of-bounds coordinates
and guard-rejected cells (already revealed, or flagged) as silent no-ops
that leave everything unchanged; the flag toggle treats already-revealed
cells and every non-`playing` status as silent no-ops, but it performs
no bounds check of its own: out-of-bounds coordinates while `playing`
fault on the unguarded cell access instead of being a no-op. -/
theorem reveal_flag_guard_noops (cfg : GameConfig) (r c : Int) (b : Board)
    (s : GameStatus) (ml : Int) :
    (¬inb b r c ∨ revealedAt b r c = true ∨ flagAt b r c = true →
      revealCell cfg r c b s = (b, s)) ∧
    (∀ cl, cellAt? b r c = some cl → cl.isRevealed = true →
      handleRightClick r c b s ml = some (b, ml)) ∧
    (s ≠ GameStatus.playing → handleRightClick r c b s ml = some (b, ml)) ∧
    (s = GameStatus.playing → cellAt? b r c = none →
      handleRightClick r c b s ml = none) := by
  refine ⟨fun h => revealGo_noop cfg _ r c b s h, fun cl hcl hrev => ?_,
    fun hs => ?_, fun hs hnone => ?_⟩
  · unfold handleRightClick
    by_cases hstat : s = GameStatus.idle ∨ s = GameStatus.won ∨ s = GameStatus.lost
    · rw [if_pos hstat]
    · rw [if_neg hstat, hcl]
      simp [hrev]
  · unfold handleRightClick
    rw [if_pos ?_]
    cases s with
    | idle => exact Or.inl rfl
    | playing => exact absurd rfl hs
    | won => exact Or.inr (Or.inl rfl)
    | lost => exact Or.inr (Or.inr rfl)
  · unfold handleRightClick
    rw [if_neg (by rw [hs]; intro h; rcases h with h | h | h <;> exact GameStatus.noConfusion h),
      hnone]

theorem reveal_flag_guard_noops_witness :
    ¬inb [[blankCell]] 5 0 ∧
    revealCell beginnerConfig 5 0 [[blankCell]] GameStatus.playing =
      ([[blankCell]], GameStatus.playing) :=
  ⟨by decide, (reveal_flag_guard_noops beginnerConfig 5 0 [[blankCell]]
    GameStatus.playing 0).1 (Or.inl (by decide))⟩

/-! ## C4: the win check -/

theorem countP_reflagRow (p : Cell → Bool)
    (hp : ∀ cl fl, p { cl with isFlagged := fl } = p cl) (f : Nat → Bool) :
    ∀ (j : Nat) (row : List Cell), (reflagRow f j row).countP p = row.countP p
  | _, [] => rfl
  | j, cl :: rest => by
    simp only [reflagRow, List.countP_cons, hp, countP_reflagRow p hp f (j + 1) rest]

theorem cellCountP_reflagGo (p : Cell → Bool)
    (hp : ∀ cl fl, p { cl with isFlagged := fl } = p cl) (f : Nat → Nat → Bool) :
    ∀ (i : Nat) (b : Board), cellCountP p (reflagGo f i b) = cellCountP p b
  | _, [] => rfl
  | i, row :: rest => by
    unfold cellCountP reflagGo
    simp only [List.map_cons, List.sum_cons]
    rw [countP_reflagRow p hp (f i) 0 row]
    have ih := cellCountP_reflagGo p hp f (i + 1) rest
    unfold cellCountP at ih
    omega

/-- C4: `checkWin` declares the game won exactly when
`revealedCount = rows * cols - mines` (otherwise it leaves the status
as it was), and an arbitrary rewrite of every cell's `isFlagged` field
does not change its outcome — flag state has no influence. -/
theorem checkWin_spec (cfg : GameConfig) (b : Board) (s : GameStatus)
    (fl : Nat → Nat → Bool) :
    (revealedCount b = cfg.rows * cfg.cols - cfg.mines →
      checkWin cfg b s = GameStatus.won) ∧
    (revealedCount b ≠ cfg.rows * cfg.cols - cfg.mines → checkWin cfg b s = s) ∧
    checkWin cfg (reflag fl b) s = checkWin cfg b s := by
  refine ⟨fun h => by unfold checkWin; rw [if_pos h],
    fun h => by unfold checkWin; rw [if_neg h], ?_⟩
  unfold checkWin
  rw [show revealedCount (reflag fl b) = revealedCount b from
    cellCountP_reflagGo (fun cl => cl.isRevealed) (fun cl fl' => rfl) fl 0 b]

theorem checkWin_spec_witness :
    revealedCount [[⟨false, true, false, 0⟩]] = 1 * 1 - 0 ∧
    checkWin ⟨1, 1, 0⟩ [[⟨false, true, false, 0⟩]] GameStatus.playing = GameStatus.won :=
  ⟨by decide, (checkWin_spec ⟨1, 1, 0⟩ [[⟨false, true, false, 0⟩]] GameStatus.playing
    (fun _ _ => false)).1 (by decide)⟩

/-! ## C3: revealing a mine -/

/-- C3: while `playing`, revealing an in-bounds, unflagged, unrevealed
mine cell sets the status to `lost` and, as a side effect, marks every
mine cell of the board as revealed. -/
theorem reveal_mine_loses (cfg : GameConfig) (r c : Int) (b : Board) (cl : Cell)
    (hin : inb b r c) (hcell : cellAt? b r c = some cl) (hm : cl.isMine = true)
    (hur : cl.isRevealed = false) (huf : cl.isFlagged = false) :
    (revealCell cfg r c b GameStatus.playing).2 = GameStatus.lost ∧
    ∀ i j : Int, mineAt b i j = true →
      revealedAt (revealCell cfg r c b GameStatus.playing).1 i j = true := by
  have hD : cellAtD b r c = cl := by unfold cellAtD; rw [hcell]; rfl
  obtain ⟨h1, h2, h3, h4⟩ := hin
  have hguard : ¬(r < 0 ∨ (b.length : Int) ≤ r ∨ c < 0 ∨ ((b.headD []).length : Int) ≤ c
      ∨ (cellAtD b r c).isRevealed = true ∨ (cellAtD b r c).isFlagged = true) := by
    rw [hD]
    intro h
    rcases h with h | h | h | h | h | h
    · omega
    · omega
    · omega
    · omega
    · rw [hur] at h; exact Bool.noConfusion h
    · rw [huf] at h; exact Bool.noConfusion h
  have hb1 : cellAt? (modifyCell b r c fun cl' => { cl' with isRevealed := true }) r c
      = some { cl with isRevealed := true } := by
    rw [cellAt?_modifyCell_self, hcell]; rfl
  have hDm : cellAtD (modifyCell b r c fun cl' => { cl' with isRevealed := true }) r c
      = { cl with isRevealed := true } := by
    unfold cellAtD; rw [hb1]; rfl
  have hres : revealCell cfg r c b GameStatus.playing =
      (revealAllMines (modifyCell b r c fun cl' => { cl' with isRevealed := true }),
        GameStatus.lost) := by
    unfold revealCell
    rw [revealGo_succ, if_neg hguard]
    simp only [hDm, hm]
    rw [if_pos trivial]
  refine ⟨by rw [hres], fun i j hmine => ?_⟩
  rw [hres]
  obtain ⟨cl', hcl', hm'⟩ := mineAt_some hmine
  obtain ⟨cl'', hc2, hm2⟩ : ∃ cl'',
      cellAt? (modifyCell b r c fun x => { x with isRevealed := true }) i j = some cl'' ∧
      cl''.isMine = true := by
    rw [cellAt?_modifyCell]
    by_cases hij : i = r ∧ j = c
    · rw [if_pos hij]
      exact ⟨{ cl' with isRevealed := true }, by rw [hcl']; rfl, hm'⟩
    · rw [if_neg hij]
      exact ⟨cl', hcl', hm'⟩
  unfold revealedAt cellAtD
  rw [cellAt?_revealAllMines, hc2]
  simp [hm2]

/-! ## C6: the mine-remaining counter -/

theorem flagStep_invariant (r c : Int) (st st' : SessionLocal)
    (h : flagStep r c st = some st') :
    st'.minesLeft + (flagCount st'.board : Int) =
      st.minesLeft + (flagCount st.board : Int) ∧
    st'.status = st.status ∧
    (st'.minesLeft = st.minesLeft ∨ st'.minesLeft = st.minesLeft - 1 ∨
      st'.minesLeft = st.minesLeft + 1) := by
  unfold flagStep handleRightClick at h
  by_cases hstat : st.status = GameStatus.idle ∨ st.status = GameStatus.won ∨
      st.status = GameStatus.lost
  · rw [if_pos hstat] at h
    simp at h
    subst h
    exact ⟨rfl, rfl, Or.inl rfl⟩
  · rw [if_neg hstat] at h
    cases hc : cellAt? st.board r c with
    | none => rw [hc] at h; exact Option.noConfusion h
    | some cl =>
      rw [hc] at h
      by_cases hrev : cl.isRevealed = true
      · simp [hrev] at h
        subst h
        exact ⟨rfl, rfl, Or.inl rfl⟩
      · simp [hrev] at h
        have hcnt := cellCountP_modify_add (fun x => x.isFlagged)
          (fun c' => { c' with isFlagged := !c'.isFlagged }) hc
        have hb : st'.board = modifyCell st.board r c
            fun c' => { c' with isFlagged := !c'.isFlagged } := by rw [← h]
        have hs : st'.status = st.status := by rw [← h]
        have hm : st'.minesLeft =
            if cl.isFlagged = true then st.minesLeft + 1 else st.minesLeft - 1 := by
          rw [← h]
        refine ⟨?_, hs, ?_⟩
        · rw [hb, hm]
          by_cases hfl : cl.isFlagged = true
          · rw [if_pos hfl]
            simp [hfl] at hcnt
            have hfc : flagCount (modifyCell st.board r c
                fun c' => { c' with isFlagged := !c'.isFlagged }) + 1 =
                flagCount st.board := hcnt
            omega
          · rw [if_neg hfl]
            simp [hfl] at hcnt
            have hfc : flagCount (modifyCell st.board r c
                fun c' => { c' with isFlagged := !c'.isFlagged }) =
                flagCount st.board + 1 := hcnt
            omega
        · rw [hm]
          by_cases hfl : cl.isFlagged = true
          · rw [if_pos hfl]
            exact Or.inr (Or.inr rfl)
          · rw [if_neg hfl]
            exact Or.inr (Or.inl rfl)

theorem applyFlags_invariant : ∀ (ops : List (Int × Int)) (st st' : SessionLocal),
    applyFlags ops st = some st' →
    st'.minesLeft + (flagCount st'.board : Int) =
      st.minesLeft + (flagCount st.board : Int)
  | [], st, st', h => by
    obtain rfl : st = st' := Option.some.inj h
    rfl
  | q :: rest, st, st', h => by
    unfold applyFlags at h
    rw [List.foldlM_cons] at h
    cases hs : flagStep q.1 q.2 st with
    | none => rw [hs] at h; exact Option.noConfusion h
    | some st1 =>
      rw [hs] at h
      have h1 := (flagStep_invariant q.1 q.2 st st1 hs).1
      have h2 := applyFlags_invariant rest st1 st' h
      omega

/-- C6: each successful flag toggle moves the mine-remaining counter by
exactly one (in the direction opposite the flag-count change, leaving
`minesLeft + flagCount` invariant), so across any toggle sequence the
counter equals `config.mines` minus the net number of flags placed; the
value is an unclamped integer, so it goes negative as soon as more cells
are flagged than there are mines. -/
theorem flag_counter_spec (r c : Int) (st st1 : SessionLocal) (ops : List (Int × Int))
    (st' : SessionLocal) (cfg : GameConfig) :
    (flagStep r c st = some st1 →
      st1.minesLeft + (flagCount st1.board : Int) =
        st.minesLeft + (flagCount st.board : Int) ∧
      (st1.minesLeft = st.minesLeft ∨ st1.minesLeft = st.minesLeft - 1 ∨
        st1.minesLeft = st.minesLeft + 1)) ∧
    (applyFlags ops st = some st' → flagCount st.board = 0 →
      st.minesLeft = (cfg.mines : Int) →
      st'.minesLeft = (cfg.mines : Int) - (flagCount st'.board : Int)) := by
  constructor
  · intro h
    obtain ⟨h1, _, h3⟩ := flagStep_invariant r c st st1 h
    exact ⟨h1, h3⟩
  · intro h hfc hml
    have := applyFlags_invariant ops st st' h
    rw [hfc, hml] at this
    omega

theorem flag_counter_witness :
    applyFlags [(0, 0), (0, 1)] ⟨[[blankCell, blankCell]], GameStatus.playing, 1⟩ =
      some ⟨[[⟨false, false, true, 0⟩, ⟨false, false, true, 0⟩]], GameStatus.playing, -1⟩ ∧
    flagCount ([[blankCell, blankCell]] : Board) = 0 ∧
    (⟨[[blankCell, blankCell]], GameStatus.playing, 1⟩ : SessionLocal).minesLeft =
      ((⟨1, 2, 1⟩ : GameConfig).mines : Int) ∧
    (⟨[[⟨false, false, true, 0⟩, ⟨false, false, true, 0⟩]], GameStatus.playing,
        -1⟩ : SessionLocal).minesLeft =
      ((⟨1, 2, 1⟩ : GameConfig).mines : Int) -
        (flagCount [[⟨false, false, true, 0⟩, ⟨false, false, true, 0⟩]] : Int) :=
  ⟨by decide, by decide, by decide,
    (flag_counter_spec 0 0 ⟨[[blankCell, blankCell]], GameStatus.playing, 1⟩
      ⟨[[blankCell, blankCell]], GameStatus.playing, 1⟩ [(0, 0), (0, 1)]
      ⟨[[⟨false, false, true, 0⟩, ⟨false, false, true, 0⟩]], GameStatus.playing, -1⟩
      ⟨1, 2, 1⟩).2 (by decide) (by decide) (by decide)⟩

theorem reveal_mine_loses_witness :
    inb [[⟨true, false, false, 0⟩]] 0 0 ∧
    (revealCell ⟨1, 1, 1⟩ 0 0 [[⟨true, false, false, 0⟩]] GameStatus.playing).2 =
      GameStatus.lost :=
  ⟨by decide, (reveal_mine_loses ⟨1, 1, 1⟩ 0 0 [[⟨true, false, false, 0⟩]]
    ⟨true, false, false, 0⟩ (by decide) (by decide) rfl rfl rfl).1⟩

/-! ## Shape lemmas -/

theorem map_length_listModify (g : List Cell → List Cell)
    (hg : ∀ l, (g l).length = l.length) :
    ∀ (n : Nat) (b : Board), (listModify g n b).map List.length = b.map List.length
  | n, [] => by cases n <;> rfl
  | 0, row :: tl => by simp [listModify, hg]
  | n + 1, row :: tl => by simp [listModify, map_length_listModify g hg n tl]

theorem modifyCell_map_length (b : Board) (r c : Int) (f : Cell → Cell) :
    (modifyCell b r c f).map List.length = b.map List.length := by
  unfold modifyCell
  by_cases hrc : 0 ≤ r ∧ 0 ≤ c
  · rw [if_pos hrc]
    exact map_length_listModify _ (fun l => listModify_length f c.toNat l) r.toNat b
  · rw [if_neg hrc]

theorem shapeCfg_mkEmpty (cfg : GameConfig) : ShapeCfg cfg (mkEmptyBoard cfg) := by
  unfold ShapeCfg mkEmptyBoard
  simp

theorem shapeCfg_modifyCell {cfg : GameConfig} {b : Board} (r c : Int) (f : Cell → Cell)
    (h : ShapeCfg cfg b) : ShapeCfg cfg (modifyCell b r c f) := by
  unfold ShapeCfg
  rw [modifyCell_map_length]
  exact h

theorem get?_replicate (a : α) : ∀ (n i : Nat), i < n → (List.replicate n a).get? i = some a
  | 0, _, h => absurd h (by omega)
  | n + 1, 0, _ => rfl
  | n + 1, i + 1, h => get?_replicate a n i (by omega)

theorem shapeCfg_length {cfg : GameConfig} {b : Board} (h : ShapeCfg cfg b) :
    b.length = cfg.rows := by
  have := congrArg List.length h
  simpa using this

theorem shapeCfg_row {cfg : GameConfig} {b : Board} (h : ShapeCfg cfg b) {i : Nat}
    {row : List Cell} (hrow : b.get? i = some row) : row.length = cfg.cols := by
  have hi : i < b.length := by
    by_contra hn
    rw [List.get?_eq_none.2 (by omega)] at hrow
    exact Option.noConfusion hrow
  have h1 : (b.map List.length).get? i = some row.length := by
    rw [get?_map', hrow]; rfl
  rw [h, get?_replicate _ _ _ (by rw [← shapeCfg_length h]; exact hi)] at h1
  exact (Option.some.inj h1).symm

theorem cellExists_of_shape {cfg : GameConfig} {b : Board} (h : ShapeCfg cfg b)
    {r c : Nat} (hr : r < cfg.rows) (hc : c < cfg.cols) :
    ∃ cl, (b.get? r).bind (fun row => row.get? c) = some cl := by
  have hr' : r < b.length := by rw [shapeCfg_length h]; exact hr
  obtain ⟨row, hrow⟩ : ∃ row, b.get? r = some row := by
    cases hb : b.get? r with
    | none => rw [List.get?_eq_none] at hb; omega
    | some row => exact ⟨row, rfl⟩
  have hlen := shapeCfg_row h hrow
  obtain ⟨cl, hcl⟩ : ∃ cl, row.get? c = some cl := by
    cases hb : row.get? c with
    | none => rw [List.get?_eq_none] at hb; omega
    | some cl => exact ⟨cl, rfl⟩
  exact ⟨cl, by rw [hrow]; simpa using hcl⟩

theorem cellAt?_toNat {b : Board} {r c : Int} (h1 : 0 ≤ r) (h2 : 0 ≤ c) :
    cellAt? b r c = (b.get? r.toNat).bind fun row => row.get? c.toNat := by
  unfold cellAt?
  rw [if_pos ⟨h1, h2⟩]

theorem cellAt?_oob_of_shape {cfg : GameConfig} {b : Board} (hsh : ShapeCfg cfg b)
    {i j : Int} (h : ¬(0 ≤ i ∧ i < (cfg.rows : Int) ∧ 0 ≤ j ∧ j < (cfg.cols : Int))) :
    cellAt? b i j = none := by
  by_cases hij : 0 ≤ i ∧ 0 ≤ j
  · rw [cellAt?_toNat hij.1 hij.2]
    by_cases hi : i < (cfg.rows : Int)
    · obtain ⟨row, hrow⟩ : ∃ row, b.get? i.toNat = some row := by
        cases hb : b.get? i.toNat with
        | none =>
          rw [List.get?_eq_none, shapeCfg_length hsh] at hb
          exact absurd hi (by omega)
        | some row => exact ⟨row, rfl⟩
      have hlen := shapeCfg_row hsh hrow
      have hj : ¬(j < (cfg.cols : Int)) := by
        intro hj'
        exact h ⟨hij.1, hi, hij.2, hj'⟩
      rw [hrow]
      show row.get? j.toNat = none
      rw [List.get?_eq_none, hlen]
      omega
    · rw [List.get?_eq_none.2 (by rw [shapeCfg_length hsh]; omega)]
      rfl
  · exact cellAt?_eq_none_of_neg hij

theorem cellAt?_bounds_of_shape {cfg : GameConfig} {b : Board} (hsh : ShapeCfg cfg b)
    {i j : Int} {cl : Cell} (h : cellAt? b i j = some cl) :
    0 ≤ i ∧ i < (cfg.rows : Int) ∧ 0 ≤ j ∧ j < (cfg.cols : Int) := by
  by_contra hn
  rw [cellAt?_oob_of_shape hsh hn] at h
  exact Option.noConfusion h

theorem cellAtD_toNat {b : Board} {r c : Int} (h1 : 0 ≤ r) (h2 : 0 ≤ c) :
    cellAtD b r c = cellAtN b r.toNat c.toNat := by
  unfold cellAtD cellAtN
  rw [cellAt?_toNat h1 h2]

/-! ## Mine-placement lemmas (C1) -/

theorem countP_congr' (l : List α) (p q : α → Bool) (h : ∀ a, p a = q a) :
    l.countP p = l.countP q := by
  induction l with
  | nil => rfl
  | cons a t ih => simp [List.countP_cons, h, ih]

theorem cellCountP_mkEmpty (cfg : GameConfig) (p : Cell → Bool) (hp : p blankCell = false) :
    cellCountP p (mkEmptyBoard cfg) = 0 := by
  unfold cellCountP mkEmptyBoard
  have hrow : (List.replicate cfg.cols blankCell).countP p = 0 := by
    induction cfg.cols with
    | zero => rfl
    | succ n ih => simpa [List.replicate, List.countP_cons, hp] using ih
  induction cfg.rows with
  | zero => rfl
  | succ n ih => simpa [List.replicate, hrow] using ih

theorem mineAt_mkEmpty (cfg : GameConfig) (i j : Int) :
    mineAt (mkEmptyBoard cfg) i j = false := by
  unfold mineAt cellAtD
  cases hc : cellAt? (mkEmptyBoard cfg) i j with
  | none => rfl
  | some cl =>
    obtain ⟨h1, h2⟩ := cellAt?_nonneg hc
    rw [cellAt?_toNat h1 h2] at hc
    unfold mkEmptyBoard at hc
    cases hb : (List.replicate cfg.rows (List.replicate cfg.cols blankCell)).get? i.toNat with
    | none => rw [hb] at hc; exact Option.noConfusion hc
    | some row =>
      rw [hb] at hc
      have hrow : row = List.replicate cfg.cols blankCell := by
        have hlt : i.toNat < cfg.rows := by
          by_contra hn
          rw [List.get?_eq_none.2 (by simpa using hn)] at hb
          exact Option.noConfusion hb
        have := get?_replicate (List.replicate cfg.cols blankCell) cfg.rows i.toNat hlt
        rw [this] at hb
        exact (Option.some.inj hb).symm
      subst hrow
      simp only [Option.some_bind] at hc
      have hcl : cl = blankCell := by
        have hlt : j.toNat < cfg.cols := by
          by_contra hn
          rw [List.get?_eq_none.2 (by simpa using hn)] at hc
          exact Option.noConfusion hc
        have := get?_replicate blankCell cfg.cols j.toNat hlt
        rw [this] at hc
        exact (Option.some.inj hc).symm
      subst hcl
      rfl

theorem placeMinesGo_shape (cfg : GameConfig) (fr fc : Int) :
    ∀ (picks : List (Nat × Nat)) (placed : Nat) (b b' : Board), ShapeCfg cfg b →
    placeMinesGo cfg fr fc picks placed b = some b' → ShapeCfg cfg b'
  | [], placed, b, b', hsh, h => by
    unfold placeMinesGo at h
    by_cases hp : cfg.mines ≤ placed
    · rw [if_pos hp] at h
      rw [← Option.some.inj h]
      exact hsh
    · rw [if_neg hp] at h
      exact Option.noConfusion h
  | p :: rest, placed, b, b', hsh, h => by
    unfold placeMinesGo at h
    by_cases hp : cfg.mines ≤ placed
    · rw [if_pos hp] at h
      rw [← Option.some.inj h]
      exact hsh
    · rw [if_neg hp] at h
      by_cases hacc : (cellAtN b p.1 p.2).isMine = false ∧ ¬((p.1 : Int) = fr ∧ (p.2 : Int) = fc)
      · rw [if_pos hacc] at h
        exact placeMinesGo_shape cfg fr fc rest (placed + 1) _ b'
          (shapeCfg_modifyCell _ _ _ hsh) h
      · rw [if_neg hacc] at h
        exact placeMinesGo_shape cfg fr fc rest placed b b' hsh h

theorem cellAtN_eq_cellAtD (b : Board) (r c : Nat) :
    cellAtN b r c = cellAtD b (r : Int) (c : Int) := by
  rw [cellAtD_toNat (by omega) (by omega)]
  simp [Int.toNat_natCast]

theorem placeMinesGo_mineCount (cfg : GameConfig) (fr fc : Int) :
    ∀ (picks : List (Nat × Nat)) (placed : Nat) (b b' : Board),
    (∀ p ∈ picks, p.1 < cfg.rows ∧ p.2 < cfg.cols) → ShapeCfg cfg b →
    placed ≤ cfg.mines →
    placeMinesGo cfg fr fc picks placed b = some b' →
    mineCount b' + placed = mineCount b + cfg.mines
  | [], placed, b, b', _, _, hle, h => by
    unfold placeMinesGo at h
    by_cases hp : cfg.mines ≤ placed
    · rw [if_pos hp] at h
      rw [← Option.some.inj h]
      omega
    · rw [if_neg hp] at h
      exact Option.noConfusion h
  | p :: rest, placed, b, b', hin, hsh, hle, h => by
    unfold placeMinesGo at h
    by_cases hp : cfg.mines ≤ placed
    · rw [if_pos hp] at h
      rw [← Option.some.inj h]
      omega
    · rw [if_neg hp] at h
      by_cases hacc : (cellAtN b p.1 p.2).isMine = false ∧ ¬((p.1 : Int) = fr ∧ (p.2 : Int) = fc)
      · rw [if_pos hacc] at h
        have hbounds := hin p (List.mem_cons_self p rest)
        obtain ⟨cl, hcl⟩ := cellExists_of_shape hsh hbounds.1 hbounds.2
        have hcl' : cellAt? b (p.1 : Int) (p.2 : Int) = some cl := by
          rw [cellAt?_toNat (by omega) (by omega)]
          simpa [Int.toNat_natCast] using hcl
        have hclm : cl.isMine = false := by
          have : cellAtN b p.1 p.2 = cl := by
            unfold cellAtN
            rw [hcl]
            rfl
          rw [← this]
          exact hacc.1
        have hstep := cellCountP_modify_add (fun x => x.isMine)
          (fun cl' => { cl' with isMine := true }) hcl'
        simp [hclm] at hstep
        have hrec := placeMinesGo_mineCount cfg fr fc rest (placed + 1)
          (setMineN b p.1 p.2) b'
          (fun q hq => hin q (List.mem_cons_of_mem p hq))
          (shapeCfg_modifyCell _ _ _ hsh) (by omega) h
        have hset : mineCount (setMineN b p.1 p.2) = mineCount b + 1 := by
          unfold setMineN mineCount
          omega
        omega
      · rw [if_neg hacc] at h
        exact placeMinesGo_mineCount cfg fr fc rest placed b b'
          (fun q hq => hin q (List.mem_cons_of_mem p hq)) hsh hle h

theorem placeMinesGo_excluded (cfg : GameConfig) (fr fc : Int) :
    ∀ (picks : List (Nat × Nat)) (placed : Nat) (b b' : Board),
    mineAt b fr fc = false →
    placeMinesGo cfg fr fc picks placed b = some b' → mineAt b' fr fc = false
  | [], placed, b, b', hex, h => by
    unfold placeMinesGo at h
    by_cases hp : cfg.mines ≤ placed
    · rw [if_pos hp] at h
      rw [← Option.some.inj h]
      exact hex
    · rw [if_neg hp] at h
      exact Option.noConfusion h
  | p :: rest, placed, b, b', hex, h => by
    unfold placeMinesGo at h
    by_cases hp : cfg.mines ≤ placed
    · rw [if_pos hp] at h
      rw [← Option.some.inj h]
      exact hex
    · rw [if_neg hp] at h
      by_cases hacc : (cellAtN b p.1 p.2).isMine = false ∧ ¬((p.1 : Int) = fr ∧ (p.2 : Int) = fc)
      · rw [if_pos hacc] at h
        refine placeMinesGo_excluded cfg fr fc rest (placed + 1) _ b' ?_ h
        unfold setMineN mineAt cellAtD
        rw [cellAt?_modifyCell_other _ _ _ _ _ _
          (fun he => hacc.2 ⟨he.1.symm, he.2.symm⟩)]
        exact hex
      · rw [if_neg hacc] at h
        exact placeMinesGo_excluded cfg fr fc rest placed b b' hex h

/-! ## Neighbor-count pass lemmas (C1) -/

theorem shapeCfg_computeNeighbors (cfg : GameConfig) (b : Board) :
    ShapeCfg cfg (computeNeighbors cfg b) := by
  unfold ShapeCfg computeNeighbors
  rw [List.map_map]
  have : (List.length ∘ fun r =>
      (List.range cfg.cols).map fun c =>
        let cl := cellAtN b r c
        if cl.isMine then cl
        else { cl with neighborMines := countAround cfg b (r : Int) (c : Int) }) =
      fun _ => cfg.cols := by
    funext r
    simp
  rw [this, List.map_const', List.length_range]

theorem cellAt?_computeNeighbors (cfg : GameConfig) (b : Board) (r c : Int)
    (h1 : 0 ≤ r) (h2 : r < (cfg.rows : Int)) (h3 : 0 ≤ c) (h4 : c < (cfg.cols : Int)) :
    cellAt? (computeNeighbors cfg b) r c =
      some (if (cellAtN b r.toNat c.toNat).isMine then cellAtN b r.toNat c.toNat
        else { cellAtN b r.toNat c.toNat with
          neighborMines := countAround cfg b r c }) := by
  rw [cellAt?_toNat h1 h3]
  unfold computeNeighbors
  rw [get?_map', List.get?_range (by omega : r.toNat < cfg.rows)]
  simp only [Option.map_some', Option.some_bind]
  rw [get?_map', List.get?_range (by omega : c.toNat < cfg.cols)]
  simp only [Option.map_some']
  rw [Int.toNat_of_nonneg h1, Int.toNat_of_nonneg h3]

theorem mineAt_computeNeighbors (cfg : GameConfig) (b : Board) (hsh : ShapeCfg cfg b)
    (i j : Int) : mineAt (computeNeighbors cfg b) i j = mineAt b i j := by
  by_cases h : 0 ≤ i ∧ i < (cfg.rows : Int) ∧ 0 ≤ j ∧ j < (cfg.cols : Int)
  · obtain ⟨h1, h2, h3, h4⟩ := h
    unfold mineAt cellAtD
    rw [cellAt?_computeNeighbors cfg b i j h1 h2 h3 h4]
    by_cases hm : (cellAtN b i.toNat j.toNat).isMine
    · rw [if_pos hm]
      show (cellAtN b i.toNat j.toNat).isMine = ((cellAt? b i j).getD blankCell).isMine
      rw [cellAt?_toNat h1 h3]
      rfl
    · rw [if_neg hm]
      show (cellAtN b i.toNat j.toNat).isMine = ((cellAt? b i j).getD blankCell).isMine
      rw [cellAt?_toNat h1 h3]
      rfl
  · unfold mineAt cellAtD
    rw [cellAt?_oob_of_shape (shapeCfg_computeNeighbors cfg b) h,
      cellAt?_oob_of_shape hsh h]

theorem bruteCount_congr (b b' : Board) (r c : Int)
    (h : ∀ i j : Int, mineAt b i j = mineAt b' i j) :
    bruteCount b r c = bruteCount b' r c := by
  unfold bruteCount
  rw [← List.countP_eq_length_filter, ← List.countP_eq_length_filter]
  exact countP_congr' _ _ _ (fun d => h (r + d.1) (c + d.2))

theorem countAround_eq_bruteCount (cfg : GameConfig) (b : Board) (r c : Int)
    (hsh : ShapeCfg cfg b) (hm : mineAt b r c = false) :
    countAround cfg b r c = bruteCount b r c := by
  unfold countAround bruteCount
  rw [← List.countP_eq_length_filter, ← List.countP_eq_length_filter]
  have hq : ∀ d : Int × Int,
      (decide (0 ≤ r + d.1) && decide (r + d.1 < (cfg.rows : Int)) &&
        decide (0 ≤ c + d.2) && decide (c + d.2 < (cfg.cols : Int)) &&
        mineAt b (r + d.1) (c + d.2)) = mineAt b (r + d.1) (c + d.2) := by
    intro d
    cases hmd : mineAt b (r + d.1) (c + d.2) with
    | false => simp
    | true =>
      obtain ⟨cl, hcl, _⟩ := mineAt_some hmd
      obtain ⟨hb1, hb2, hb3, hb4⟩ := cellAt?_bounds_of_shape hsh hcl
      simp [hb1, hb2, hb3, hb4]
  rw [countP_congr' _ _ _ hq]
  have hperm : offsets9.Perm ((0, 0) :: offsets8) := by decide
  rw [hperm.countP_eq]
  rw [List.countP_cons]
  simp [hm]

theorem cellCountP_eq_of_cells (p : Cell → Bool) : ∀ (b b' : Board),
    b.map List.length = b'.map List.length →
    (∀ i j : Nat, ((b.get? i).bind fun row => row.get? j).map p =
      ((b'.get? i).bind fun row => row.get? j).map p) →
    cellCountP p b = cellCountP p b'
  | [], [], _, _ => rfl
  | [], _ :: _, h, _ => by simp at h
  | _ :: _, [], h, _ => by simp at h
  | row :: tl, row' :: tl', hlen, hc => by
    unfold cellCountP
    simp only [List.map_cons, List.sum_cons]
    have hlen' : row.length = row'.length ∧ tl.map List.length = tl'.map List.length := by
      simpa using hlen
    have h0 : row.countP p = row'.countP p := by
      apply countP_eq_of_get? p row row' hlen'.1
      intro n
      simpa using hc 0 n
    have ht := cellCountP_eq_of_cells p tl tl' hlen'.2
      (fun i j => by simpa using hc (i + 1) j)
    unfold cellCountP at ht
    omega

theorem mineCount_eq_of_mineAt (cfg : GameConfig) (b b' : Board) (hb : ShapeCfg cfg b)
    (hb' : ShapeCfg cfg b') (h : ∀ i j : Int, mineAt b i j = mineAt b' i j) :
    mineCount b = mineCount b' := by
  apply cellCountP_eq_of_cells
  · rw [hb, hb']
  · intro i j
    have hrw : ∀ x : Board,
        ((x.get? i).bind fun row => row.get? j) = cellAt? x (i : Int) (j : Int) := by
      intro x
      rw [cellAt?_toNat (by omega) (by omega)]
      simp
    rw [hrw b, hrw b']
    by_cases hij : i < cfg.rows ∧ j < cfg.cols
    · obtain ⟨cl, hcl⟩ := cellExists_of_shape hb hij.1 hij.2
      obtain ⟨cl', hcl'⟩ := cellExists_of_shape hb' hij.1 hij.2
      have hcl2 : cellAt? b (i : Int) (j : Int) = some cl := by rw [← hrw b]; exact hcl
      have hcl2' : cellAt? b' (i : Int) (j : Int) = some cl' := by rw [← hrw b']; exact hcl'
      rw [hcl2, hcl2']
      have hmm := h (i : Int) (j : Int)
      unfold mineAt cellAtD at hmm
      rw [hcl2, hcl2'] at hmm
      simpa using hmm
    · have hoob : ¬(0 ≤ (i : Int) ∧ (i : Int) < (cfg.rows : Int) ∧
          0 ≤ (j : Int) ∧ (j : Int) < (cfg.cols : Int)) := by
        intro hcon
        exact hij ⟨by omega, by omega⟩
      rw [cellAt?_oob_of_shape hb hoob, cellAt?_oob_of_shape hb' hoob]

/-! ## C1: board generation -/

/-- C1 counterexample: on a successfully generated beginner board the
claim fails for mine cells — the neighbor-count pass of `startGame`
skips cells with `isMine = true`, so a mine adjacent to another mine
keeps `neighborMines = 0` while the brute-force neighbor count is 1. -/
theorem generate_neighbor_cex :
    (generate beginnerConfig 8 8
      [(0, 0), (0, 1), (2, 0), (2, 2), (2, 4), (2, 6), (2, 8),
        (4, 0), (4, 2), (4, 4)]).isSome = true ∧
    mineAt ((generate beginnerConfig 8 8
      [(0, 0), (0, 1), (2, 0), (2, 2), (2, 4), (2, 6), (2, 8),
        (4, 0), (4, 2), (4, 4)]).getD []) 0 0 = true ∧
    countAt ((generate beginnerConfig 8 8
      [(0, 0), (0, 1), (2, 0), (2, 2), (2, 4), (2, 6), (2, 8),
        (4, 0), (4, 2), (4, 4)]).getD []) 0 0 = 0 ∧
    bruteCount ((generate beginnerConfig 8 8
      [(0, 0), (0, 1), (2, 0), (2, 2), (2, 4), (2, 6), (2, 8),
        (4, 0), (4, 2), (4, 4)]).getD []) 0 0 = 1 := by
  decide

/-- C1 (amended): whenever the rejection-sampling loop completes (the
random stream fills the quota), the generated board has exactly
`config.mines` mines, the excluded first-clicked cell is never a mine,
the board has the configured shape, and every NON-MINE cell's
`neighborMines` equals the brute-force count of mines among its up to 8
in-bounds neighbors; mine cells are skipped by the counting pass and
keep `neighborMines = 0`. -/
theorem generate_spec (cfg : GameConfig) (fr fc : Int) (picks : List (Nat × Nat))
    (bd : Board) (hpicks : ∀ p ∈ picks, p.1 < cfg.rows ∧ p.2 < cfg.cols)
    (hgen : generate cfg fr fc picks = some bd) :
    mineCount bd = cfg.mines ∧
    mineAt bd fr fc = false ∧
    ShapeCfg cfg bd ∧
    ∀ r c : Int, 0 ≤ r → r < (cfg.rows : Int) → 0 ≤ c → c < (cfg.cols : Int) →
      mineAt bd r c = false → countAt bd r c = bruteCount bd r c := by
  unfold generate at hgen
  cases hpl : placeMinesGo cfg fr fc picks 0 (mkEmptyBoard cfg) with
  | none => rw [hpl] at hgen; exact Option.noConfusion hgen
  | some placed =>
    rw [hpl] at hgen
    simp only [Option.map_some'] at hgen
    obtain rfl : computeNeighbors cfg placed = bd := Option.some.inj hgen
    have hshp : ShapeCfg cfg placed :=
      placeMinesGo_shape cfg fr fc picks 0 _ placed (shapeCfg_mkEmpty cfg) hpl
    have hshb : ShapeCfg cfg (computeNeighbors cfg placed) :=
      shapeCfg_computeNeighbors cfg placed
    have hmpt : ∀ i j : Int, mineAt (computeNeighbors cfg placed) i j = mineAt placed i j :=
      mineAt_computeNeighbors cfg placed hshp
    refine ⟨?_, ?_, hshb, ?_⟩
    · have hmc := mineCount_eq_of_mineAt cfg (computeNeighbors cfg placed) placed
        hshb hshp hmpt
      have hplc := placeMinesGo_mineCount cfg fr fc picks 0 (mkEmptyBoard cfg) placed
        hpicks (shapeCfg_mkEmpty cfg) (Nat.zero_le _) hpl
      have hz : mineCount (mkEmptyBoard cfg) = 0 := cellCountP_mkEmpty cfg _ rfl
      omega
    · rw [hmpt]
      exact placeMinesGo_excluded cfg fr fc picks 0 _ placed
        (mineAt_mkEmpty cfg fr fc) hpl
    · intro r c h1 h2 h3 h4 hmn
      have hmn' : mineAt placed r c = false := by rw [← hmpt]; exact hmn
      have hmn'' : (cellAtN placed r.toNat c.toNat).isMine = false := by
        have : mineAt placed r c = (cellAtN placed r.toNat c.toNat).isMine := by
          unfold mineAt
          rw [cellAtD_toNat h1 h3]
        rw [← this]
        exact hmn'
      unfold countAt cellAtD
      rw [cellAt?_computeNeighbors cfg placed r c h1 h2 h3 h4]
      rw [if_neg (by rw [hmn'']; exact Bool.noConfusion)]
      show countAround cfg placed r c = bruteCount (computeNeighbors cfg placed) r c
      rw [countAround_eq_bruteCount cfg placed r c hshp hmn']
      exact bruteCount_congr placed (computeNeighbors cfg placed) r c
        (fun i j => (hmpt i j).symm)

theorem generate_spec_witness :
    (∀ p ∈ [((1 : Nat), (1 : Nat))], p.1 < (2 : Nat) ∧ p.2 < (2 : Nat)) ∧
    generate ⟨2, 2, 1⟩ 0 0 [(1, 1)] =
      some [[⟨false, false, false, 1⟩, ⟨false, false, false, 1⟩],
        [⟨false, false, false, 1⟩, ⟨true, false, false, 0⟩]] ∧
    mineCount [[⟨false, false, false, 1⟩, ⟨false, false, false, 1⟩],
      [⟨false, false, false, 1⟩, ⟨true, false, false, 0⟩]] = 1 ∧
    mineAt [[⟨false, false, false, 1⟩, ⟨false, false, false, 1⟩],
      [⟨false, false, false, 1⟩, ⟨true, false, false, 0⟩]] 0 0 = false :=
  ⟨by decide, by decide,
    (generate_spec ⟨2, 2, 1⟩ 0 0 [(1, 1)] _ (by decide) (by decide)).1,
    (generate_spec ⟨2, 2, 1⟩ 0 0 [(1, 1)] _ (by decide) (by decide)).2.1⟩

/-! ## Frame machinery for the reveal operation (C10, C2) -/

theorem boardEvolves_refl (b : Board) : BoardEvolves b b :=
  ⟨rfl, fun _ _ => rfl, fun _ _ h => h, Nat.le_refl _⟩

theorem boardEvolves_trans {a b c : Board} (h1 : BoardEvolves a b) (h2 : BoardEvolves b c) :
    BoardEvolves a c :=
  ⟨h2.1.trans h1.1, fun r c => (h2.2.1 r c).trans (h1.2.1 r c),
    fun r c h => h2.2.2.1 r c (h1.2.2.1 r c h), Nat.le_trans h2.2.2.2 h1.2.2.2⟩

theorem revealedAt_some {b : Board} {i j : Int} (h : revealedAt b i j = true) :
    ∃ cl, cellAt? b i j = some cl ∧ cl.isRevealed = true := by
  unfold revealedAt cellAtD at h
  cases hc : cellAt? b i j with
  | none => rw [hc] at h; exact absurd h (by simp [blankCell])
  | some cl => rw [hc] at h; exact ⟨cl, rfl, h⟩

theorem evolves_setRevealed (b : Board) (r c : Int) :
    BoardEvolves b (modifyCell b r c fun cl => { cl with isRevealed := true }) := by
  refine ⟨modifyCell_map_length b r c _, ?_, ?_, ?_⟩
  · intro i j
    rw [cellAt?_modifyCell]
    by_cases h : i = r ∧ j = c
    · rw [if_pos h]
      cases cellAt? b i j <;> rfl
    · rw [if_neg h]
  · intro i j hrev
    obtain ⟨cl, hcl, hclr⟩ := revealedAt_some hrev
    unfold revealedAt cellAtD
    rw [cellAt?_modifyCell]
    by_cases h : i = r ∧ j = c
    · rw [if_pos h, hcl]
      rfl
    · rw [if_neg h, hcl]
      exact hclr
  · by_cases hc : cellAt? b r c = none
    · rw [modifyCell_of_none _ hc]
    · obtain ⟨cl, hcl⟩ : ∃ cl, cellAt? b r c = some cl := by
        cases hx : cellAt? b r c with
        | none => exact absurd hx hc
        | some cl => exact ⟨cl, rfl⟩
      have hcnt := cellCountP_modify_add (fun x => !x.isRevealed)
        (fun cl => { cl with isRevealed := true }) hcl
      unfold unrevealedCount
      simp at hcnt
      omega

theorem evolves_revealAllMines (b : Board) : BoardEvolves b (revealAllMines b) := by
  refine ⟨?_, ?_, ?_, ?_⟩
  · unfold revealAllMines
    rw [List.map_map]
    apply List.map_congr_left
    intro row _
    simp
  · intro i j
    rw [cellAt?_revealAllMines]
    cases cellAt? b i j with
    | none => rfl
    | some cl =>
      show some (staticPart (if cl.isMine then { cl with isRevealed := true } else cl)) =
        some (staticPart cl)
      by_cases hm : cl.isMine
      · rw [if_pos hm]
        rfl
      · rw [if_neg hm]
  · intro i j hrev
    obtain ⟨cl, hcl, hclr⟩ := revealedAt_some hrev
    unfold revealedAt cellAtD
    rw [cellAt?_revealAllMines, hcl]
    by_cases hm : cl.isMine
    · simp [hm]
    · simp [hm, hclr]
  · unfold unrevealedCount cellCountP revealAllMines
    induction b with
    | nil => simp
    | cons row tl ih =>
      simp only [List.map_cons, List.sum_cons]
      have hrow : (row.map fun cl =>
          if cl.isMine then { cl with isRevealed := true } else cl).countP
            (fun cl => !cl.isRevealed) ≤ row.countP (fun cl => !cl.isRevealed) := by
        rw [List.countP_map]
        apply List.countP_mono_left
        intro cl _ h
        by_cases hm : cl.isMine
        · simp [hm] at h
        · simpa [hm] using h
      omega

theorem seq_evolves (step : Int → Int → Board → GameStatus → Board × GameStatus)
    (hstep : ∀ r c b s, BoardEvolves b (step r c b s).1) :
    ∀ (qs : List (Int × Int)) (b : Board) (s : GameStatus),
      BoardEvolves b (revealSeq step qs b s).1
  | [], b, _ => boardEvolves_refl b
  | q :: qs, b, s =>
    boardEvolves_trans (hstep q.1 q.2 b s)
      (seq_evolves step hstep qs (step q.1 q.2 b s).1 (step q.1 q.2 b s).2)

/-- Fully zeta-expanded successor unfolding of the fueled reveal. -/
theorem revealGo_succ' (cfg : GameConfig) (f : Nat) (r c : Int) (b : Board) (s : GameStatus) :
    revealGo cfg (f + 1) r c b s =
      if r < 0 ∨ (b.length : Int) ≤ r ∨ c < 0 ∨ ((b.headD []).length : Int) ≤ c
          ∨ (cellAtD b r c).isRevealed = true ∨ (cellAtD b r c).isFlagged = true then
        (b, s)
      else if (cellAtD (modifyCell b r c fun cl => { cl with isRevealed := true }) r c).isMine
          = true then
        (revealAllMines (modifyCell b r c fun cl => { cl with isRevealed := true }),
          GameStatus.lost)
      else
        ((if (cellAtD (modifyCell b r c fun cl => { cl with isRevealed := true }) r c).neighborMines
              = 0 then
            revealSeq (fun r' c' b' s' => revealGo cfg f r' c' b' s') (neighborPositions r c)
              (modifyCell b r c fun cl => { cl with isRevealed := true }) s
          else (modifyCell b r c fun cl => { cl with isRevealed := true }, s)).1,
          checkWin cfg
            (if (cellAtD (modifyCell b r c fun cl => { cl with isRevealed := true }) r c).neighborMines
                = 0 then
              revealSeq (fun r' c' b' s' => revealGo cfg f r' c' b' s') (neighborPositions r c)
                (modifyCell b r c fun cl => { cl with isRevealed := true }) s
            else (modifyCell b r c fun cl => { cl with isRevealed := true }, s)).1
            (if (cellAtD (modifyCell b r c fun cl => { cl with isRevealed := true }) r c).neighborMines
                = 0 then
              revealSeq (fun r' c' b' s' => revealGo cfg f r' c' b' s') (neighborPositions r c)
                (modifyCell b r c fun cl => { cl with isRevealed := true }) s
            else (modifyCell b r c fun cl => { cl with isRevealed := true }, s)).2) := by
  rw [revealGo]

theorem go_evolves (cfg : GameConfig) (fuel : Nat) :
    ∀ (r c : Int) (b : Board) (s : GameStatus), BoardEvolves b (revealGo cfg fuel r c b s).1 := by
  induction fuel with
  | zero =>
    intro r c b s
    rw [revealGo_zero]
    exact boardEvolves_refl b
  | succ fuel ih =>
    intro r c b s
    rw [revealGo_succ']
    by_cases hg : r < 0 ∨ (b.length : Int) ≤ r ∨ c < 0 ∨ ((b.headD []).length : Int) ≤ c
        ∨ (cellAtD b r c).isRevealed = true ∨ (cellAtD b r c).isFlagged = true
    · rw [if_pos hg]
      exact boardEvolves_refl b
    · rw [if_neg hg]
      by_cases hm : (cellAtD (modifyCell b r c fun cl => { cl with isRevealed := true }) r c).isMine = true
      · rw [if_pos hm]
        exact boardEvolves_trans (evolves_setRevealed b r c) (evolves_revealAllMines _)
      · rw [if_neg hm]
        by_cases hz : (cellAtD (modifyCell b r c fun cl => { cl with isRevealed := true }) r c).neighborMines = 0
        · rw [if_pos hz]
          exact boardEvolves_trans (evolves_setRevealed b r c)
            (seq_evolves _ (fun r' c' b' s' => ih r' c' b' s') _ _ _)
        · rw [if_neg hz]
          exact evolves_setRevealed b r c

/-! ## C10: the reveal operation only writes isRevealed -/

/-- C10: for every board, status and coordinates, `revealCell`
(including the flood-fill recursion and the mine-disclosure branch)
preserves the grid shape and every cell's `isMine`, `isFlagged` and
`neighborMines` fields — `isRevealed` is the only per-cell field it
writes. -/
theorem reveal_frame (cfg : GameConfig) (r c : Int) (b : Board) (s : GameStatus) :
    (revealCell cfg r c b s).1.map List.length = b.map List.length ∧
    ∀ i j : Int, (cellAt? (revealCell cfg r c b s).1 i j).map staticPart =
      (cellAt? b i j).map staticPart := by
  obtain ⟨h1, h2, _, _⟩ := go_evolves cfg (unrevealedCount b + 1) r c b s
  exact ⟨h1, h2⟩

/-! ## Layout transport lemmas (C2) -/

theorem layoutEq_refl (b : Board) : LayoutEq b b := ⟨rfl, fun _ _ => rfl⟩

theorem layoutEq_evolves {b0 b b' : Board} (h : LayoutEq b0 b) (he : BoardEvolves b b') :
    LayoutEq b0 b' :=
  ⟨he.1.trans h.1, fun r c => (he.2.1 r c).trans (h.2 r c)⟩

theorem headD_length_eq {b b0 : Board} (h : b.map List.length = b0.map List.length) :
    (b.headD []).length = (b0.headD []).length := by
  cases b with
  | nil =>
    cases b0 with
    | nil => rfl
    | cons _ _ => simp at h
  | cons row tl =>
    cases b0 with
    | nil => simp at h
    | cons row0 tl0 =>
      simp only [List.map_cons, List.cons.injEq] at h
      simpa using h.1

theorem length_eq_of_map_length {b b0 : Board} (h : b.map List.length = b0.map List.length) :
    b.length = b0.length := by
  have := congrArg List.length h
  simpa using this

theorem inb_layoutEq {b0 b : Board} (h : LayoutEq b0 b) (r c : Int) :
    inb b r c ↔ inb b0 r c := by
  unfold inb
  rw [length_eq_of_map_length h.1, headD_length_eq h.1]

theorem static_layoutEq {b0 b : Board} (h : LayoutEq b0 b) (i j : Int) :
    mineAt b i j = mineAt b0 i j ∧ flagAt b i j = flagAt b0 i j ∧
    countAt b i j = countAt b0 i j := by
  have hs := h.2 i j
  unfold mineAt flagAt countAt cellAtD
  cases hb : cellAt? b i j with
  | none =>
    rw [hb] at hs
    cases hb0 : cellAt? b0 i j with
    | none => exact ⟨rfl, rfl, rfl⟩
    | some cl => rw [hb0] at hs; exact Option.noConfusion hs
  | some cl =>
    rw [hb] at hs
    cases hb0 : cellAt? b0 i j with
    | none => rw [hb0] at hs; exact Option.noConfusion hs
    | some cl0 =>
      rw [hb0] at hs
      have hsp : staticPart cl = staticPart cl0 := Option.some.inj hs
      unfold staticPart at hsp
      exact ⟨congrArg Prod.fst hsp, congrArg (fun x => x.2.1) hsp,
        congrArg (fun x => x.2.2) hsp⟩

theorem isSome_layoutEq {b0 b : Board} (h : LayoutEq b0 b) (i j : Int) :
    (cellAt? b i j).isSome = (cellAt? b0 i j).isSome := by
  have hs := h.2 i j
  cases hb : cellAt? b i j with
  | none =>
    rw [hb] at hs
    cases hb0 : cellAt? b0 i j with
    | none => rfl
    | some cl => rw [hb0] at hs; exact Option.noConfusion hs
  | some cl =>
    rw [hb] at hs
    cases hb0 : cellAt? b0 i j with
    | none => rw [hb0] at hs; exact Option.noConfusion hs
    | some cl0 => rfl

theorem cellExists_of_inb {b : Board} (hrect : Rect b) {r c : Int} (h : inb b r c) :
    ∃ cl, cellAt? b r c = some cl := by
  obtain ⟨h1, h2, h3, h4⟩ := h
  rw [cellAt?_toNat h1 h3]
  obtain ⟨row, hrow⟩ : ∃ row, b.get? r.toNat = some row := by
    cases hb : b.get? r.toNat with
    | none => rw [List.get?_eq_none] at hb; omega
    | some row => exact ⟨row, rfl⟩
  have hmem : row ∈ b := List.get?_mem hrow
  have hlen := hrect row hmem
  obtain ⟨cl, hcl⟩ : ∃ cl, row.get? c.toNat = some cl := by
    cases hb : row.get? c.toNat with
    | none => rw [List.get?_eq_none] at hb; omega
    | some cl => exact ⟨cl, rfl⟩
  exact ⟨cl, by rw [hrow]; simpa using hcl⟩

theorem noFlags_flagAt {b : Board} (hrect : Rect b) (hnf : NoFlags b) (i j : Int) :
    flagAt b i j = false := by
  unfold flagAt cellAtD
  cases hc : cellAt? b i j with
  | none => rfl
  | some cl =>
    obtain ⟨h1, h2⟩ := cellAt?_nonneg hc
    rw [cellAt?_toNat h1 h2] at hc
    obtain ⟨row, hrow, hcell⟩ : ∃ row, b.get? i.toNat = some row ∧
        row.get? j.toNat = some cl := by
      cases hb : b.get? i.toNat with
      | none => rw [hb] at hc; exact Option.noConfusion hc
      | some row => exact ⟨row, rfl, by rw [hb] at hc; simpa using hc⟩
    have hi : i.toNat < b.length := by
      by_contra hn
      rw [List.get?_eq_none.2 (by omega)] at hrow
      exact Option.noConfusion hrow
    have hj : j.toNat < row.length := by
      by_contra hn
      rw [List.get?_eq_none.2 (by omega)] at hcell
      exact Option.noConfusion hcell
    have hjlen : j.toNat < (b.headD []).length := by
      rw [← hrect row (List.get?_mem hrow)]
      exact hj
    have := hnf i.toNat hi j.toNat hjlen
    unfold cellAtN at this
    rw [hrow] at this
    simp only [Option.some_bind] at this
    rw [hcell] at this
    simpa using this

theorem noneRevealed_revealedAt {b : Board} (hrect : Rect b) (hnr : NoneRevealed b)
    (i j : Int) : revealedAt b i j = false := by
  unfold revealedAt cellAtD
  cases hc : cellAt? b i j with
  | none => rfl
  | some cl =>
    obtain ⟨h1, h2⟩ := cellAt?_nonneg hc
    rw [cellAt?_toNat h1 h2] at hc
    obtain ⟨row, hrow, hcell⟩ : ∃ row, b.get? i.toNat = some row ∧
        row.get? j.toNat = some cl := by
      cases hb : b.get? i.toNat with
      | none => rw [hb] at hc; exact Option.noConfusion hc
      | some row => exact ⟨row, rfl, by rw [hb] at hc; simpa using hc⟩
    have hi : i.toNat < b.length := by
      by_contra hn
      rw [List.get?_eq_none.2 (by omega)] at hrow
      exact Option.noConfusion hrow
    have hj : j.toNat < row.length := by
      by_contra hn
      rw [List.get?_eq_none.2 (by omega)] at hcell
      exact Option.noConfusion hcell
    have hjlen : j.toNat < (b.headD []).length := by
      rw [← hrect row (List.get?_mem hrow)]
      exact hj
    have := hnr i.toNat hi j.toNat hjlen
    unfold cellAtN at this
    rw [hrow] at this
    simp only [Option.some_bind] at this
    rw [hcell] at this
    simpa using this

theorem consistent_count {b : Board} (hrect : Rect b) (hcons : Consistent b)
    {i j : Int} {cl : Cell} (hc : cellAt? b i j = some cl) (hm : cl.isMine = false) :
    cl.neighborMines = bruteCount b i j := by
  obtain ⟨h1, h2⟩ := cellAt?_nonneg hc
  rw [cellAt?_toNat h1 h2] at hc
  obtain ⟨row, hrow, hcell⟩ : ∃ row, b.get? i.toNat = some row ∧
      row.get? j.toNat = some cl := by
    cases hb : b.get? i.toNat with
    | none => rw [hb] at hc; exact Option.noConfusion hc
    | some row => exact ⟨row, rfl, by rw [hb] at hc; simpa using hc⟩
  have hi : i.toNat < b.length := by
    by_contra hn
    rw [List.get?_eq_none.2 (by omega)] at hrow
    exact Option.noConfusion hrow
  have hj : j.toNat < row.length := by
    by_contra hn
    rw [List.get?_eq_none.2 (by omega)] at hcell
    exact Option.noConfusion hcell
  have hjlen : j.toNat < (b.headD []).length := by
    rw [← hrect row (List.get?_mem hrow)]
    exact hj
  have hN : cellAtN b i.toNat j.toNat = cl := by
    unfold cellAtN
    rw [hrow]
    simp only [Option.some_bind]
    rw [hcell]
    rfl
  have := hcons i.toNat hi j.toNat hjlen
  rw [hN] at this
  have hres := this hm
  rwa [Int.toNat_of_nonneg h1, Int.toNat_of_nonneg h2] at hres

theorem offsets9_cases {d : Int × Int} (hd : d ∈ offsets9) :
    d = (0, 0) ∨ d ∈ offsets8 := by
  fin_cases hd <;> simp [offsets8]

theorem offsets8_sub_offsets9 {d : Int × Int} (hd : d ∈ offsets8) : d ∈ offsets9 := by
  fin_cases hd <;> simp [offsets9]

theorem bruteCount_zero {b : Board} {r c : Int} (h : bruteCount b r c = 0) :
    ∀ d ∈ offsets8, mineAt b (r + d.1) (c + d.2) = false := by
  intro d hd
  unfold bruteCount at h
  rw [← List.countP_eq_length_filter, List.countP_eq_zero] at h
  have := h d hd
  simpa using this

theorem revealedAt_setRevealed {b : Board} {r c i j : Int}
    (h : revealedAt (modifyCell b r c fun cl => { cl with isRevealed := true }) i j = true) :
    revealedAt b i j = true ∨ (i = r ∧ j = c) := by
  by_cases hij : i = r ∧ j = c
  · exact Or.inr hij
  · left
    unfold revealedAt cellAtD at h ⊢
    rw [cellAt?_modifyCell_other _ _ _ _ _ _ hij] at h
    exact h

theorem unrevealedCount_setRevealed {b : Board} {r c : Int} {cl : Cell}
    (hc : cellAt? b r c = some cl) (hr : cl.isRevealed = false) :
    unrevealedCount (modifyCell b r c fun cl => { cl with isRevealed := true }) + 1 =
      unrevealedCount b := by
  have hcnt := cellCountP_modify_add (fun x => !x.isRevealed)
    (fun cl => { cl with isRevealed := true }) hc
  unfold unrevealedCount
  simp [hr] at hcnt
  omega

theorem reach_comp {b0 : Board} {r c : Int} (hin : inb b0 r c)
    (hz : countAt b0 r c = 0) {d : Int × Int} (hd : d ∈ offsets9) :
    ∀ {i j : Int}, Reach b0 (r + d.1) (c + d.2) i j → Reach b0 r c i j := by
  intro i j h
  induction h with
  | refl => exact Reach.step Reach.refl hin hz hd
  | step h' hin' hz' hd' ih => exact Reach.step ih hin' hz' hd'

theorem guard_false_parts {b : Board} {r c : Int}
    (hg : ¬(r < 0 ∨ (b.length : Int) ≤ r ∨ c < 0 ∨ ((b.headD []).length : Int) ≤ c
      ∨ (cellAtD b r c).isRevealed = true ∨ (cellAtD b r c).isFlagged = true)) :
    inb b r c ∧ revealedAt b r c = false ∧ flagAt b r c = false := by
  push_neg at hg
  obtain ⟨h1, h2, h3, h4, h5, h6⟩ := hg
  refine ⟨⟨by omega, by omega, by omega, by omega⟩, ?_, ?_⟩
  · unfold revealedAt
    cases hx : (cellAtD b r c).isRevealed with
    | false => rfl
    | true => exact absurd hx h5
  · unfold flagAt
    cases hx : (cellAtD b r c).isFlagged with
    | false => rfl
    | true => exact absurd hx h6

theorem guard_of_parts {b : Board} {r c : Int} (hinb : inb b r c)
    (hrev : revealedAt b r c = false) (hfl : flagAt b r c = false) :
    ¬(r < 0 ∨ (b.length : Int) ≤ r ∨ c < 0 ∨ ((b.headD []).length : Int) ≤ c
      ∨ (cellAtD b r c).isRevealed = true ∨ (cellAtD b r c).isFlagged = true) := by
  obtain ⟨h1, h2, h3, h4⟩ := hinb
  intro h
  rcases h with h | h | h | h | h | h
  · omega
  · omega
  · omega
  · omega
  · have hx : (cellAtD b r c).isRevealed = false := hrev
    rw [hx] at h
    exact Bool.noConfusion h
  · have hx : (cellAtD b r c).isFlagged = false := hfl
    rw [hx] at h
    exact Bool.noConfusion h

theorem seq_sound (cfg : GameConfig) (b0 : Board) (fuel : Nat)
    (IH : ∀ (r c : Int) (b : Board) (s : GameStatus), LayoutEq b0 b →
      mineAt b0 r c = false →
      ∀ i j : Int, revealedAt (revealGo cfg fuel r c b s).1 i j = true →
        revealedAt b i j = true ∨ Reach b0 r c i j) :
    ∀ (qs : List (Int × Int)) (b : Board) (s : GameStatus), LayoutEq b0 b →
      (∀ q ∈ qs, mineAt b0 q.1 q.2 = false) →
      ∀ i j : Int,
        revealedAt (revealSeq (fun r' c' b' s' => revealGo cfg fuel r' c' b' s') qs b s).1
          i j = true →
        revealedAt b i j = true ∨ ∃ q ∈ qs, Reach b0 q.1 q.2 i j
  | [], _, _, _, _, _, _, h => Or.inl h
  | q :: qs, b, s, hl, hsafe, i, j, h => by
    rcases seq_sound cfg b0 fuel IH qs (revealGo cfg fuel q.1 q.2 b s).1
        (revealGo cfg fuel q.1 q.2 b s).2
        (layoutEq_evolves hl (go_evolves cfg fuel q.1 q.2 b s))
        (fun q' hq' => hsafe q' (List.mem_cons_of_mem q hq')) i j h with
      h1 | h1
    · rcases IH q.1 q.2 b s hl (hsafe q (List.mem_cons_self q qs)) i j h1 with h2 | h2
      · exact Or.inl h2
      · exact Or.inr ⟨q, List.mem_cons_self q qs, h2⟩
    · obtain ⟨q', hq', hr⟩ := h1
      exact Or.inr ⟨q', List.mem_cons_of_mem q hq', hr⟩

theorem go_sound (cfg : GameConfig) (b0 : Board) (hrect : Rect b0)
    (hcons : Consistent b0) (fuel : Nat) :
    ∀ (r c : Int) (b : Board) (s : GameStatus), LayoutEq b0 b →
      mineAt b0 r c = false →
      ∀ i j : Int, revealedAt (revealGo cfg fuel r c b s).1 i j = true →
        revealedAt b i j = true ∨ Reach b0 r c i j := by
  induction fuel with
  | zero =>
    intro r c b s _ _ i j h
    rw [revealGo_zero] at h
    exact Or.inl h
  | succ fuel ih =>
    intro r c b s hl hm i j h
    rw [revealGo_succ'] at h
    by_cases hg : r < 0 ∨ (b.length : Int) ≤ r ∨ c < 0 ∨ ((b.headD []).length : Int) ≤ c
        ∨ (cellAtD b r c).isRevealed = true ∨ (cellAtD b r c).isFlagged = true
    · rw [if_pos hg] at h
      exact Or.inl h
    · rw [if_neg hg] at h
      obtain ⟨hinb, hrev, hfl⟩ := guard_false_parts hg
      have hinb0 : inb b0 r c := (inb_layoutEq hl r c).1 hinb
      have hl1 : LayoutEq b0 (modifyCell b r c fun cl => { cl with isRevealed := true }) :=
        layoutEq_evolves hl (evolves_setRevealed b r c)
      have hmine1 : ¬((cellAtD (modifyCell b r c fun cl => { cl with isRevealed := true })
          r c).isMine = true) := by
        have hmm : mineAt (modifyCell b r c fun cl => { cl with isRevealed := true }) r c =
            mineAt b0 r c := (static_layoutEq hl1 r c).1
        intro hx
        rw [show (cellAtD (modifyCell b r c fun cl => { cl with isRevealed := true })
          r c).isMine = false from hm ▸ hmm] at hx
        exact Bool.noConfusion hx
      rw [if_neg hmine1] at h
      by_cases hz : (cellAtD (modifyCell b r c fun cl => { cl with isRevealed := true })
          r c).neighborMines = 0
      · rw [if_pos hz] at h
        have hz0 : countAt b0 r c = 0 := by
          have hcc : countAt (modifyCell b r c fun cl => { cl with isRevealed := true }) r c =
              countAt b0 r c := (static_layoutEq hl1 r c).2.2
          rw [← hcc]
          exact hz
        obtain ⟨cl0, hcl0⟩ := cellExists_of_inb hrect hinb0
        have hcl0m : cl0.isMine = false := by
          unfold mineAt cellAtD at hm
          rw [hcl0] at hm
          exact hm
        have hbrute : bruteCount b0 r c = 0 := by
          have hcc := consistent_count hrect hcons hcl0 hcl0m
          have hcn : countAt b0 r c = cl0.neighborMines := by
            unfold countAt cellAtD
            rw [hcl0]
            rfl
          omega
        have hsafe : ∀ q ∈ neighborPositions r c, mineAt b0 q.1 q.2 = false := by
          intro q hq
          obtain ⟨d, hd, rfl⟩ := List.mem_map.1 hq
          rcases offsets9_cases hd with h0 | h8
          · subst h0
            simpa using hm
          · exact bruteCount_zero hbrute d h8
        rcases seq_sound cfg b0 fuel ih (neighborPositions r c)
            (modifyCell b r c fun cl => { cl with isRevealed := true }) s hl1 hsafe i j h with
          h1 | h1
        · rcases revealedAt_setRevealed h1 with h2 | ⟨rfl, rfl⟩
          · exact Or.inl h2
          · exact Or.inr Reach.refl
        · obtain ⟨q, hq, hr⟩ := h1
          obtain ⟨d, hd, rfl⟩ := List.mem_map.1 hq
          exact Or.inr (reach_comp hinb0 hz0 hd hr)
      · rw [if_neg hz] at h
        rcases revealedAt_setRevealed h with h2 | ⟨rfl, rfl⟩
        · exact Or.inl h2
        · exact Or.inr Reach.refl

theorem go_reveals (cfg : GameConfig) (fuel : Nat) (r c : Int) (b : Board) (s : GameStatus)
    (hfuel : 1 ≤ fuel) (hinb : inb b r c) (hfl : flagAt b r c = false)
    (hcell : ∃ cl, cellAt? b r c = some cl) :
    revealedAt (revealGo cfg fuel r c b s).1 r c = true := by
  obtain ⟨cl, hcl⟩ := hcell
  cases fuel with
  | zero => exact absurd hfuel (by omega)
  | succ fuel =>
    rw [revealGo_succ']
    by_cases hrev : revealedAt b r c = true
    · have hrevD : (cellAtD b r c).isRevealed = true := hrev
      rw [if_pos (Or.inr (Or.inr (Or.inr (Or.inr (Or.inl hrevD)))))]
      exact hrev
    · have hrev' : revealedAt b r c = false := by
        cases hx : revealedAt b r c with
        | false => rfl
        | true => exact absurd hx hrev
      rw [if_neg (guard_of_parts hinb hrev' hfl)]
      have hb1 : revealedAt (modifyCell b r c fun cl => { cl with isRevealed := true })
          r c = true := by
        unfold revealedAt cellAtD
        rw [cellAt?_modifyCell_self, hcl]
        rfl
      by_cases hm : (cellAtD (modifyCell b r c fun cl => { cl with isRevealed := true })
          r c).isMine = true
      · rw [if_pos hm]
        exact (evolves_revealAllMines _).2.2.1 r c hb1
      · rw [if_neg hm]
        by_cases hz : (cellAtD (modifyCell b r c fun cl => { cl with isRevealed := true })
            r c).neighborMines = 0
        · rw [if_pos hz]
          exact (seq_evolves _ (fun r' c' b' s' => go_evolves cfg fuel r' c' b' s')
            _ _ _).2.2.1 r c hb1
        · rw [if_neg hz]
          exact hb1

theorem cellExists_transport {b0 b : Board} (hl : LayoutEq b0 b) {r c : Int}
    (h : ∃ cl, cellAt? b0 r c = some cl) : ∃ cl, cellAt? b r c = some cl := by
  obtain ⟨cl0, hcl0⟩ := h
  have hs := isSome_layoutEq hl r c
  rw [hcl0] at hs
  exact Option.isSome_iff_exists.1 hs

theorem neighbors_safe {b0 : Board} (hrect : Rect b0) (hcons : Consistent b0)
    {r c : Int} (hinb0 : inb b0 r c) (hm : mineAt b0 r c = false)
    (hz0 : countAt b0 r c = 0) :
    ∀ q ∈ neighborPositions r c, mineAt b0 q.1 q.2 = false := by
  obtain ⟨cl0, hcl0⟩ := cellExists_of_inb hrect hinb0
  have hcl0m : cl0.isMine = false := by
    unfold mineAt cellAtD at hm
    rw [hcl0] at hm
    exact hm
  have hbrute : bruteCount b0 r c = 0 := by
    have hcc := consistent_count hrect hcons hcl0 hcl0m
    have hcn : countAt b0 r c = cl0.neighborMines := by
      unfold countAt cellAtD
      rw [hcl0]
      rfl
    omega
  intro q hq
  obtain ⟨d, hd, rfl⟩ := List.mem_map.1 hq
  rcases offsets9_cases hd with h0 | h8
  · subst h0
    simpa using hm
  · exact bruteCount_zero hbrute d h8

theorem sexc_setRevealed {b0 b : Board} {E : Int × Int → Prop} {r c : Int}
    (hS : SExc b0 b E) :
    SExc b0 (modifyCell b r c fun cl => { cl with isRevealed := true })
      (fun p => E p ∨ p = (r, c)) := by
  intro i j hne hrev hinb hz d hd hdinb
  have hne' : ¬E (i, j) := fun h => hne (Or.inl h)
  have hneq : ¬((i, j) = (r, c)) := fun h => hne (Or.inr h)
  rcases revealedAt_setRevealed hrev with hrb | ⟨rfl, rfl⟩
  · exact (evolves_setRevealed b r c).2.2.1 _ _ (hS i j hne' hrb hinb hz d hd hdinb)
  · exact absurd rfl hneq

theorem seq_stable (cfg : GameConfig) (b0 : Board) (hrect : Rect b0)
    (hfl0 : ∀ i j : Int, flagAt b0 i j = false) (fuel : Nat)
    (IH : ∀ (r c : Int) (b : Board) (s : GameStatus) (E : Int × Int → Prop),
      LayoutEq b0 b → mineAt b0 r c = false → unrevealedCount b + 1 ≤ fuel →
      SExc b0 b E → SExc b0 (revealGo cfg fuel r c b s).1 E) :
    ∀ (qs : List (Int × Int)) (b : Board) (s : GameStatus) (E : Int × Int → Prop),
      LayoutEq b0 b → (∀ q ∈ qs, mineAt b0 q.1 q.2 = false) →
      unrevealedCount b + 1 ≤ fuel → SExc b0 b E →
      SExc b0 (revealSeq (fun r' c' b' s' => revealGo cfg fuel r' c' b' s') qs b s).1 E ∧
      ∀ q ∈ qs, inb b0 q.1 q.2 →
        revealedAt (revealSeq (fun r' c' b' s' => revealGo cfg fuel r' c' b' s') qs b s).1
          q.1 q.2 = true
  | [], b, s, E, _, _, _, hS => ⟨hS, fun q hq => absurd hq (List.not_mem_nil q)⟩
  | q :: qs, b, s, E, hl, hsafe, hfuel, hS => by
    have hev := go_evolves cfg fuel q.1 q.2 b s
    have hSp := IH q.1 q.2 b s E hl (hsafe q (List.mem_cons_self q qs)) hfuel hS
    have hucp : unrevealedCount (revealGo cfg fuel q.1 q.2 b s).1 + 1 ≤ fuel := by
      have := hev.2.2.2
      omega
    have hrec := seq_stable cfg b0 hrect hfl0 fuel IH qs
      (revealGo cfg fuel q.1 q.2 b s).1 (revealGo cfg fuel q.1 q.2 b s).2 E
      (layoutEq_evolves hl hev)
      (fun q' hq' => hsafe q' (List.mem_cons_of_mem q hq')) hucp hSp
    refine ⟨hrec.1, ?_⟩
    intro q' hq' hinb0q'
    rcases List.mem_cons.1 hq' with rfl | hmem
    · have hinbb : inb b q'.1 q'.2 := (inb_layoutEq hl _ _).2 hinb0q'
      have hflb : flagAt b q'.1 q'.2 = false := by
        rw [(static_layoutEq hl _ _).2.1]
        exact hfl0 _ _
      have hcellb : ∃ cl, cellAt? b q'.1 q'.2 = some cl :=
        cellExists_transport hl (cellExists_of_inb hrect hinb0q')
      have hq1 := go_reveals cfg fuel q'.1 q'.2 b s (by omega) hinbb hflb hcellb
      exact (seq_evolves _ (fun r' c' b' s' => go_evolves cfg fuel r' c' b' s')
        qs _ _).2.2.1 q'.1 q'.2 hq1
    · exact hrec.2 q' hmem hinb0q'

theorem go_stable (cfg : GameConfig) (b0 : Board) (hrect : Rect b0) (hcons : Consistent b0)
    (hfl0 : ∀ i j : Int, flagAt b0 i j = false) (fuel : Nat) :
    ∀ (r c : Int) (b : Board) (s : GameStatus) (E : Int × Int → Prop),
      LayoutEq b0 b → mineAt b0 r c = false → unrevealedCount b + 1 ≤ fuel →
      SExc b0 b E → SExc b0 (revealGo cfg fuel r c b s).1 E := by
  induction fuel with
  | zero =>
    intro r c b s E _ _ hfuel _
    exact absurd hfuel (by omega)
  | succ fuel ih =>
    intro r c b s E hl hm hfuel hS
    rw [revealGo_succ']
    by_cases hg : r < 0 ∨ (b.length : Int) ≤ r ∨ c < 0 ∨ ((b.headD []).length : Int) ≤ c
        ∨ (cellAtD b r c).isRevealed = true ∨ (cellAtD b r c).isFlagged = true
    · rw [if_pos hg]
      exact hS
    · rw [if_neg hg]
      obtain ⟨hinb, hrev, hfl⟩ := guard_false_parts hg
      have hinb0 : inb b0 r c := (inb_layoutEq hl r c).1 hinb
      have hl1 : LayoutEq b0 (modifyCell b r c fun cl => { cl with isRevealed := true }) :=
        layoutEq_evolves hl (evolves_setRevealed b r c)
      have hmine1 : ¬((cellAtD (modifyCell b r c fun cl => { cl with isRevealed := true })
          r c).isMine = true) := by
        have hmm : mineAt (modifyCell b r c fun cl => { cl with isRevealed := true }) r c =
            mineAt b0 r c := (static_layoutEq hl1 r c).1
        intro hx
        rw [show (cellAtD (modifyCell b r c fun cl => { cl with isRevealed := true })
          r c).isMine = false from hm ▸ hmm] at hx
        exact Bool.noConfusion hx
      rw [if_neg hmine1]
      obtain ⟨cl, hcl⟩ : ∃ cl, cellAt? b r c = some cl :=
        cellExists_transport hl (cellExists_of_inb hrect hinb0)
      have hclrev : cl.isRevealed = false := by
        unfold revealedAt cellAtD at hrev
        rw [hcl] at hrev
        exact hrev
      have huc := unrevealedCount_setRevealed hcl hclrev
      have hS1 : SExc b0 (modifyCell b r c fun cl => { cl with isRevealed := true })
          (fun p => E p ∨ p = (r, c)) := sexc_setRevealed hS
      by_cases hz : (cellAtD (modifyCell b r c fun cl => { cl with isRevealed := true })
          r c).neighborMines = 0
      · rw [if_pos hz]
        have hz0 : countAt b0 r c = 0 := by
          have hcc : countAt (modifyCell b r c fun cl => { cl with isRevealed := true }) r c =
              countAt b0 r c := (static_layoutEq hl1 r c).2.2
          rw [← hcc]
          exact hz
        have hsafe := neighbors_safe hrect hcons hinb0 hm hz0
        have hseq := seq_stable cfg b0 hrect hfl0 fuel ih (neighborPositions r c)
          (modifyCell b r c fun cl => { cl with isRevealed := true }) s
          (fun p => E p ∨ p = (r, c)) hl1 hsafe (by omega) hS1
        intro i j hne hrevout hinb0ij hzij d hd hdinb
        by_cases hij : (i, j) = (r, c)
        · have hi : i = r := congrArg Prod.fst hij
          have hj : j = c := congrArg Prod.snd hij
          rw [hi, hj] at hdinb ⊢
          exact hseq.2 (r + d.1, c + d.2) (List.mem_map.2 ⟨d, hd, rfl⟩) hdinb
        · exact hseq.1 i j
            (fun hor => by
              rcases hor with h | h
              · exact hne h
              · exact hij h)
            hrevout hinb0ij hzij d hd hdinb
      · rw [if_neg hz]
        intro i j hne hrevb1 hinb0ij hzij d hd hdinb
        rcases revealedAt_setRevealed hrevb1 with hrb | ⟨rfl, rfl⟩
        · exact (evolves_setRevealed b r c).2.2.1 _ _
            (hS i j hne hrb hinb0ij hzij d hd hdinb)
        · have hz0' : countAt b0 i j ≠ 0 := by
            intro h0
            apply hz
            have hcc : countAt (modifyCell b i j fun cl => { cl with isRevealed := true }) i j =
                countAt b0 i j := (static_layoutEq hl1 i j).2.2
            rw [show (cellAtD (modifyCell b i j fun cl => { cl with isRevealed := true })
              i j).neighborMines = countAt b0 i j from hcc]
            exact h0
          exact absurd hzij hz0'

/-! ## Region and ring equivalence (C2) -/

theorem zconn_inb_zero {b : Board} {r c i j : Int} (h : ZConn b r c i j) :
    (i = r ∧ j = c) ∨ (inb b i j ∧ countAt b i j = 0) := by
  induction h with
  | refl => exact Or.inl ⟨rfl, rfl⟩
  | step h' hd hinb hz ih => exact Or.inr ⟨hinb, hz⟩

theorem zconn_to_reach {b : Board} {r c : Int} (hin : inb b r c)
    (hz : countAt b r c = 0) : ∀ {i j : Int}, ZConn b r c i j → Reach b r c i j := by
  intro i j h
  induction h with
  | refl => exact Reach.refl
  | @step i' j' d h' hd hinb' hz' ih =>
    rcases zconn_inb_zero h' with ⟨rfl, rfl⟩ | ⟨hinbS, hzS⟩
    · exact Reach.step Reach.refl hin hz hd
    · exact Reach.step ih hinbS hzS hd

theorem ring_to_reach {b : Board} {r c : Int} (hin : inb b r c)
    (hz : countAt b r c = 0) {i j : Int} (h : RingMem b r c i j) : Reach b r c i j := by
  obtain ⟨z, hzconn, hzzero, d, hd8, hi, hj, _⟩ := h
  subst hi
  subst hj
  have hzin : inb b z.1 z.2 := by
    rcases zconn_inb_zero hzconn with ⟨h1, h2⟩ | ⟨hinbS, _⟩
    · rw [h1, h2]
      exact hin
    · exact hinbS
  exact Reach.step (zconn_to_reach hin hz hzconn) hzin hzzero (offsets8_sub_offsets9 hd8)

theorem reach_to_region {b : Board} {r c : Int} (hz : countAt b r c = 0) :
    ∀ {i j : Int}, Reach b r c i j → inb b i j →
      ZConn b r c i j ∨ RingMem b r c i j := by
  intro i j h
  induction h with
  | refl => exact fun _ => Or.inl ZConn.refl
  | @step i' j' d h' hinb' hz' hd ih =>
    intro htinb
    have hsrc : ZConn b r c i' j' := by
      rcases ih hinb' with hzc | hring
      · exact hzc
      · obtain ⟨z, _, _, d', hd', hi, hj, hne⟩ := hring
        exact absurd hz' hne
    by_cases hzt : countAt b (i' + d.1) (j' + d.2) = 0
    · exact Or.inl (ZConn.step hsrc hd htinb hzt)
    · rcases offsets9_cases hd with h0 | h8
      · subst h0
        exact absurd (by simpa using hz') hzt
      · exact Or.inr ⟨(i', j'), hsrc, hz', d, h8, rfl, rfl, hzt⟩

theorem reach_revealed_final {b out : Board} (hstab : SExc b out (fun _ => False))
    {r c : Int} (hroot : revealedAt out r c = true) :
    ∀ {i j : Int}, Reach b r c i j → inb b i j → revealedAt out i j = true := by
  intro i j h
  induction h with
  | refl => exact fun _ => hroot
  | @step i' j' d h' hinb' hz' hd ih =>
    intro htinb
    exact hstab _ _ (fun f => f) (ih hinb') hinb' hz' _ hd htinb

/-! ## C2: flood-fill region characterization -/

/-- C2 counterexample: the claim quantifies over every board and every
cell with `neighborMines == 0`, but a MINE cell can carry
`neighborMines = 0` (generated boards give all mines count 0).
Revealing it takes the mine branch: on `[[mine(0), safe(1)]]` the ring
cell `(0, 1)` belongs to the claimed region-plus-ring set yet stays
unrevealed. -/
theorem floodfill_region_cex :
    countAt [[⟨true, false, false, 0⟩, ⟨false, false, false, 1⟩]] 0 0 = 0 ∧
    RingMem [[⟨true, false, false, 0⟩, ⟨false, false, false, 1⟩]] 0 0 0 1 ∧
    revealedAt (revealCell ⟨1, 2, 1⟩ 0 0
      [[⟨true, false, false, 0⟩, ⟨false, false, false, 1⟩]] GameStatus.playing).1 0 1 =
      false := by
  refine ⟨by decide, ?_, by decide⟩
  exact ⟨(0, 0), ZConn.refl, by decide, (0, 1), by decide, by decide, by decide, by decide⟩

/-- C2 (amended): on a rectangular board whose neighbor counts are
consistent with the mine layout and on which nothing is revealed or
flagged, revealing an in-bounds NON-MINE cell with `neighborMines = 0`
reveals exactly its connected zero-neighbor region plus the ring of
non-zero cells bordering that region: any sufficient fuel
(`unrevealedCount + 1`, the bound used by `revealCell`) yields a final
board whose revealed set is precisely that region-plus-ring, each cell
being processed at most once thanks to the revealed/flagged guard. -/
theorem reveal_floodfill_region (cfg : GameConfig) (b : Board) (r c : Int)
    (s : GameStatus) (fuel : Nat) (hrect : Rect b) (hcons : Consistent b)
    (hnf : NoFlags b) (hnr : NoneRevealed b) (hin : inb b r c)
    (hmine : mineAt b r c = false) (hzero : countAt b r c = 0)
    (hfuel : unrevealedCount b + 1 ≤ fuel) :
    ∀ i j : Int, inb b i j →
      (revealedAt (revealGo cfg fuel r c b s).1 i j = true ↔
        (ZConn b r c i j ∨ RingMem b r c i j)) := by
  have hfl0 : ∀ i j : Int, flagAt b i j = false := noFlags_flagAt hrect hnf
  have hnr0 : ∀ i j : Int, revealedAt b i j = false := noneRevealed_revealedAt hrect hnr
  have hstab : SExc b (revealGo cfg fuel r c b s).1 (fun _ => False) :=
    go_stable cfg b hrect hcons hfl0 fuel r c b s (fun _ => False)
      (layoutEq_refl b) hmine hfuel
      (fun i j _ hrev _ _ _ _ _ => by
        rw [hnr0 i j] at hrev
        exact Bool.noConfusion hrev)
  have hroot : revealedAt (revealGo cfg fuel r c b s).1 r c = true :=
    go_reveals cfg fuel r c b s (by omega) hin (hfl0 r c)
      (cellExists_of_inb hrect hin)
  intro i j hinbij
  constructor
  · intro h
    rcases go_sound cfg b hrect hcons fuel r c b s (layoutEq_refl b) hmine i j h with
      h1 | h1
    · rw [hnr0 i j] at h1
      exact Bool.noConfusion h1
    · exact reach_to_region hzero h1 hinbij
  · intro h
    have hreach : Reach b r c i j := by
      rcases h with h | h
      · exact zconn_to_reach hin hzero h
      · exact ring_to_reach hin hzero h
    exact reach_revealed_final hstab hroot hreach hinbij

theorem reveal_floodfill_region_witness :
    Rect ([[blankCell, blankCell], [blankCell, blankCell]] : Board) ∧
    Consistent [[blankCell, blankCell], [blankCell, blankCell]] ∧
    inb [[blankCell, blankCell], [blankCell, blankCell]] 0 1 ∧
    (revealedAt (revealGo ⟨2, 2, 0⟩
        (unrevealedCount [[blankCell, blankCell], [blankCell, blankCell]] + 1) 0 0
        [[blankCell, blankCell], [blankCell, blankCell]] GameStatus.playing).1 0 1 = true ↔
      (ZConn [[blankCell, blankCell], [blankCell, blankCell]] 0 0 0 1 ∨
        RingMem [[blankCell, blankCell], [blankCell, blankCell]] 0 0 0 1)) :=
  ⟨by decide, by decide, by decide,
    reveal_floodfill_region ⟨2, 2, 0⟩
      [[blankCell, blankCell], [blankCell, blankCell]] 0 0 GameStatus.playing
      (unrevealedCount [[blankCell, blankCell], [blankCell, blankCell]] + 1)
      (by decide) (by decide) (by decide) (by decide) (by decide) (by decide)
      (by decide) (by decide) 0 1 (by decide)⟩

end ROG



